import Mathlib

/-!
NFA to DFA conversion by the subset construction.

A shallow embedding of `src/main.cpp` and a verification of its subset
construction: epsilon closure, the move function, the worklist loop that
discovers the DFA states, and the computation of the accepting DFA states.

Modelling conventions.

* `std::vector<int>` is `List Int`; `push_back` appends at the end.
* `std::stack<int>` is a `List Int` whose head is the top of the stack.
* `std::map<K, V>` read with `operator[]` is an association list read with
  `List.lookup`, a missing key giving the value-initialised `V`
  (the empty vector, the empty map).
* `NFATableType` is passed by value to `eclosure` and `move`, so the entries
  that `operator[]` inserts there are never seen by the caller.
* `DFATableType` is a `std::map<int, DFAState>` whose keys are `0 .. n-1`:
  `subsetConstruction` starts from the empty global table, creates key `0`,
  and every later insertion uses the key `currentDFAStateNumber`, which is the
  size of the table at that moment.  The table is the list of its values, the
  key of a value being its position; the counter is the length of the list.
  That the keys are `0 .. n-1` is proved on a second embedding of the driver,
  `subsetConstructionMap`, which works on the map itself (`DFAMapType`, the
  list of its key/value pairs) and carries the counter
  `currentDFAStateNumber`: `subsetConstructionMap_toMap` shows that, started
  on the empty table, it builds the states of the list model under the keys
  `0 .. n-1`.
* State identifiers and DFA indices are C++ `int`s.  The program performs no
  arithmetic on them apart from counting DFA states, so they are unbounded
  integers here.
* `std::sort` on integers is `List.insertionSort (· ≤ ·)`: every sorting
  algorithm returns the same list on a total order whose equal elements are
  indistinguishable.
* Printing to `std::cout` is left out.
-/

namespace NfaToDfa

/-! ## Data model -/

/-- A state of the DFA under construction (`struct DFAState`). -/
structure DFAState where
  marked : Bool
  states : List Int
  moves : List (Char × Int)
  deriving DecidableEq, Repr

/-- The DFA table, `std::map<int, DFAState>` with keys `0 .. n-1`. -/
abbrev DFATableType := List DFAState

/-- The NFA table, `std::map<int, std::map<char, std::vector<int>>>`. -/
abbrev NFATableType := List (Int × List (Char × List Int))

/-- The expression `NFATable[s][c]`: the destinations of `s` on `c`, empty
when `s` or `c` is not a key. -/
def nfaAt (NFATable : NFATableType) (s : Int) (c : Char) : List Int :=
  match NFATable.lookup s with
  | none => []
  | some m => (m.lookup c).getD []

/-- Every destination that is stored somewhere in the NFA table. -/
def nfaDests (NFATable : NFATableType) : List Int :=
  (NFATable.map (fun e => (e.2.map (fun m => m.2)).flatten)).flatten

/-- The assignment `moves[c] = j` on a `std::map<char,int>`. -/
def movesAssign (moves : List (Char × Int)) (c : Char) (j : Int) : List (Char × Int) :=
  match moves with
  | [] => [(c, j)]
  | e :: rest => if e.1 = c then (c, j) :: rest else e :: movesAssign rest c j

/-- The expression `DFATable[k].states`. -/
def tableStates (DFATable : DFATableType) (k : Nat) : List Int :=
  match DFATable[k]? with
  | some s => s.states
  | none => []

/-- The statement `DFATable[k].marked = true`. -/
def tableMark (DFATable : DFATableType) (k : Nat) : DFATableType :=
  match DFATable[k]? with
  | some s => DFATable.set k { s with marked := true }
  | none => DFATable

/-- The statement `DFATable[k].moves[w] = j`. -/
def tableSetMove (DFATable : DFATableType) (k : Nat) (w : Char) (j : Int) : DFATableType :=
  match DFATable[k]? with
  | some s => DFATable.set k { s with moves := movesAssign s.moves w j }
  | none => DFATable

/-! ## Helpers of the source -/

/-- Membership test `doesVectorContain`. -/
def doesVectorContain (vec : List Int) (key : Int) : Bool :=
  match vec with
  | [] => false
  | k :: rest => if k = key then true else doesVectorContain rest key

/-- Loop of `isAnythingUnmarked`, at index `i` with the states from `i` on. -/
def isAnythingUnmarkedFrom (i : Nat) : List DFAState → Int
  | [] => -1
  | current :: rest =>
    if !current.marked then (i : Int) else isAnythingUnmarkedFrom (i + 1) rest

/-- The first unmarked index of the table, `-1` when every state is marked. -/
def isAnythingUnmarked (DFATable : DFATableType) : Int :=
  isAnythingUnmarkedFrom 0 DFATable

/-- Loop of `isAMember`, at index `i` with the states from `i` on. -/
def isAMemberFrom (state : List Int) (i : Nat) : List DFAState → Int
  | [] => -1
  | current :: rest =>
    if current.states = state then (i : Int) else isAMemberFrom state (i + 1) rest

/-- The first index whose constituent vector equals `state`, else `-1`. -/
def isAMember (state : List Int) (DFATable : DFATableType) : Int :=
  isAMemberFrom state 0 DFATable

/-- Constructor helper `newDFAState`. -/
def newDFAState (mark : Bool) (s : List Int) : DFAState :=
  { marked := mark, states := s, moves := [] }

/-! ## Epsilon closure -/

/-- The `for` loop over `EMoves` inside `eclosure`: every destination that is
not yet in `eclosure` is appended to it and pushed on the stack.  The result
is the pair (eclosure, stack). -/
def eclosureInner : List Int → List Int → List Int → List Int × List Int
  | [], ecl, myStack => (ecl, myStack)
  | i :: rest, ecl, myStack =>
    if !(doesVectorContain ecl i) then eclosureInner rest (ecl ++ [i]) (i :: myStack)
    else eclosureInner rest ecl myStack

/-- The `while` loop of `eclosure`, run for at most `fuel` iterations on the
pair (eclosure, stack). -/
def eclosureLoop (NFATable : NFATableType) : Nat → List Int → List Int → List Int × List Int
  | 0, ecl, myStack => (ecl, myStack)
  | _ + 1, ecl, [] => (ecl, [])
  | fuel + 1, ecl, cur :: myStack =>
    let r := eclosureInner (nfaAt NFATable cur 'E') ecl myStack
    eclosureLoop NFATable fuel r.1 r.2

/-- A number of iterations that the `while` loop of `eclosure` never exceeds
(`eclosureLoop_fuel_enough`): every iteration pops one state, and a state is
pushed only when it enters the closure. -/
def eclosureFuel (T : List Int) (NFATable : NFATableType) : Nat :=
  T.length + (nfaDests NFATable).length

/-- The function `eclosure`: the stack receives the members of `T` in order
(so the last one is on top), the closure starts as `T`, the loop runs, and the
closure is sorted. -/
def eclosure (T : List Int) (NFATable : NFATableType) : List Int :=
  ((eclosureLoop NFATable (eclosureFuel T NFATable) T T.reverse).1).insertionSort (· ≤ ·)

/-! ## Move -/

/-- The inner loop of `move` over `reachableStates`. -/
def moveInner : List Int → List Int → List Int
  | [], ans => ans
  | k :: rest, ans =>
    if !(doesVectorContain ans k) then moveInner rest (ans ++ [k]) else moveInner rest ans

/-- The outer loop of `move` over the members of `T`. -/
def moveOuter (NFATable : NFATableType) (mv : Char) : List Int → List Int → List Int
  | [], ans => ans
  | j :: rest, ans => moveOuter NFATable mv rest (moveInner (nfaAt NFATable j mv) ans)

/-- The function `move`. -/
def move (T : List Int) (mv : Char) (NFATable : NFATableType) : List Int :=
  (moveOuter NFATable mv T []).insertionSort (· ≤ ·)

/-! ## Accepting DFA states -/

/-- The inner loop of `findFinalDFAStates` over `finalStates`, for the DFA
state `i` with constituent vector `states`. -/
def findFinalInner (states : List Int) (i : Nat) : List Int → List Int → List Int
  | [], finals => finals
  | k :: rest, finals =>
    if doesVectorContain states k then findFinalInner states i rest (finals ++ [(i : Int)])
    else findFinalInner states i rest finals

/-- The outer loop of `findFinalDFAStates`, at index `i` with the DFA states
from `i` on. -/
def findFinalOuter (finalStates : List Int) (i : Nat) : List DFAState → List Int → List Int
  | [], finals => finals
  | current :: rest, finals =>
    findFinalOuter finalStates (i + 1) rest (findFinalInner current.states i finalStates finals)

/-- The function `findFinalDFAStates`. -/
def findFinalDFAStates (DFATable : DFATableType) (finalStates : List Int) : List Int :=
  findFinalOuter finalStates 0 DFATable []

/-! ## Subset construction -/

/-- The body of the `for` loop over the alphabet in `subsetConstruction`, for
the marked state `k` and the symbol `w`. -/
def subsetSymbol (NFATable : NFATableType) (k : Nat) (w : Char)
    (DFATable : DFATableType) : DFATableType :=
  let theMove := move (tableStates DFATable k) w NFATable
  let alphaMove := eclosure theMove NFATable
  let j := isAMember alphaMove DFATable
  if j ≥ 0 then
    tableSetMove DFATable k w j
  else if !alphaMove.isEmpty then
    tableSetMove (DFATable ++ [newDFAState false alphaMove]) k w (DFATable.length : Int)
  else
    tableSetMove DFATable k w (-1)

/-- The `for` loop over the symbols `ws`. -/
def subsetSymbols (NFATable : NFATableType) (k : Nat) : List Char → DFATableType → DFATableType
  | [], DFATable => DFATable
  | w :: rest, DFATable => subsetSymbols NFATable k rest (subsetSymbol NFATable k w DFATable)

/-- The symbols visited by `for (w = ALPHABET.begin(); w != ALPHABET.end()-1; w++)`:
all but the last one.  (On an empty `ALPHABET` the C++ loop has no defined
behaviour; the statements about the construction assume a non-empty one.) -/
def iteratedSymbols (ALPHABET : List Char) : List Char :=
  ALPHABET.dropLast

/-- The body of the `while` loop of `subsetConstruction`: mark the first
unmarked state and compute its transitions. -/
def subsetIteration (NFATable : NFATableType) (ALPHABET : List Char)
    (DFATable : DFATableType) : DFATableType :=
  let k := (isAnythingUnmarked DFATable).toNat
  subsetSymbols NFATable k (iteratedSymbols ALPHABET) (tableMark DFATable k)

/-- The `while` loop of `subsetConstruction`, run for at most `fuel` iterations. -/
def subsetLoop (NFATable : NFATableType) (ALPHABET : List Char) : Nat → DFATableType → DFATableType
  | 0, DFATable => DFATable
  | fuel + 1, DFATable =>
    if isAnythingUnmarked DFATable ≥ 0 then
      subsetLoop NFATable ALPHABET fuel (subsetIteration NFATable ALPHABET DFATable)
    else DFATable

/-- The table with which the `while` loop is entered: the single unmarked
state `eclosure({initialState})`. -/
def initialTable (initialState : Int) (NFATable : NFATableType) : DFATableType :=
  [newDFAState false (eclosure [initialState] NFATable)]

/-- A number of iterations that the `while` loop of `subsetConstruction` never
exceeds (`subsetLoop_fuel_enough`): every iteration marks one more state, and
the constituent vectors are distinct sorted lists of states of the NFA. -/
def subsetFuel (initialState : Int) (NFATable : NFATableType) : Nat :=
  2 ^ (initialState :: nfaDests NFATable).length

/-- The function `subsetConstruction`, returning the DFA table it builds in
the (initially empty) table passed by reference.  `finalStates` is not used
by the source either. -/
def subsetConstruction (initialState : Int) (_finalStates : List Int)
    (NFATable : NFATableType) (ALPHABET : List Char) : DFATableType :=
  subsetLoop NFATable ALPHABET (subsetFuel initialState NFATable)
    (initialTable initialState NFATable)

/-! ## Specification-side definitions and invariants -/

/-- One epsilon transition of the NFA: `t` is an `'E'`-destination of `s`. -/
def EpsStep (NFATable : NFATableType) (s t : Int) : Prop :=
  t ∈ nfaAt NFATable s 'E'

/-- Reachability by zero or more epsilon transitions. -/
def EpsReach (NFATable : NFATableType) : Int → Int → Prop :=
  Relation.ReflTransGen (EpsStep NFATable)

/-- The measure that bounds the remaining iterations of the `while` loop of
`eclosure`: the height of the stack plus the number of stored destinations
that are not yet in the closure. -/
def eclosureMeasure (NFATable : NFATableType) (ecl st : List Int) : Nat :=
  st.length + ((nfaDests NFATable).toFinset \ ecl.toFinset).card

/-- Soundness invariant of the loop of `eclosure`. -/
def EclSound (NFATable : NFATableType) (T ecl st : List Int) : Prop :=
  (∀ x ∈ ecl, ∃ t ∈ T, EpsReach NFATable t x) ∧ (∀ x ∈ st, x ∈ ecl)

/-- Completeness invariant of the loop of `eclosure`. -/
def EclComplete (NFATable : NFATableType) (T ecl st : List Int) : Prop :=
  (∀ t ∈ T, t ∈ ecl) ∧ (∀ x ∈ ecl, x ∈ st ∨ ∀ u ∈ nfaAt NFATable x 'E', u ∈ ecl)

/-- The unsorted closure computed by the loop of `eclosure`. -/
def eclosureRaw (T : List Int) (NFATable : NFATableType) : List Int :=
  (eclosureLoop NFATable (eclosureFuel T NFATable) T T.reverse).1

/-- The flag `DFATable[k].marked` (false for an index outside the table). -/
def tableMarked (DFATable : DFATableType) (k : Nat) : Bool :=
  match DFATable[k]? with
  | some s => s.marked
  | none => false

/-- The entry of `DFATable[k].moves` for the symbol `c`, if there is one. -/
def tableMoves (DFATable : DFATableType) (k : Nat) (c : Char) : Option Int :=
  match DFATable[k]? with
  | some s => s.moves.lookup c
  | none => none

/-- The invariant of the DFA table that concerns the constituent vectors: the
table is not empty, state `0` is the closure of the start state, every
constituent vector is strictly increasing, non-empty, closed under epsilon
transitions and made of states of the NFA, and no vector occurs twice. -/
structure Core (initialState : Int) (NFATable : NFATableType) (tbl : DFATableType) : Prop where
  nonempty : 0 < tbl.length
  zero : tableStates tbl 0 = eclosure [initialState] NFATable
  sorted : ∀ i < tbl.length, (tableStates tbl i).Sorted (· < ·)
  ne_nil : ∀ i < tbl.length, tableStates tbl i ≠ []
  closed : ∀ i < tbl.length, ∀ s ∈ tableStates tbl i,
    ∀ u ∈ nfaAt NFATable s 'E', u ∈ tableStates tbl i
  distinct : ∀ i j, i < tbl.length → j < tbl.length →
    tableStates tbl i = tableStates tbl j → i = j
  univ : ∀ i < tbl.length, ∀ x ∈ tableStates tbl i, x ∈ initialState :: nfaDests NFATable

/-- The recorded transition of state `k` on `a` is the right one: `-1` when
`eclosure(move(k.states, a))` is empty, else the index of the state with that
constituent vector. -/
def MoveOK (NFATable : NFATableType) (tbl : DFATableType) (k : Nat) (a : Char) : Prop :=
  (eclosure (move (tableStates tbl k) a NFATable) NFATable = [] ∧
      tableMoves tbl k a = some (-1)) ∨
  (∃ j : Nat, j < tbl.length ∧ tableMoves tbl k a = some (j : Int) ∧
      tableStates tbl j = eclosure (move (tableStates tbl k) a NFATable) NFATable)

/-- The table `tbl2` keeps the states of `tbl1` at their indices. -/
def Extends (tbl1 tbl2 : DFATableType) : Prop :=
  tbl1.length ≤ tbl2.length ∧ ∀ i < tbl1.length, tableStates tbl2 i = tableStates tbl1 i

/-- The loop invariant of `subsetConstruction`: the invariant on the
constituent vectors, and every marked state has its transitions on all the
iterated symbols recorded correctly. -/
def Inv (initialState : Int) (NFATable : NFATableType) (syms : List Char)
    (tbl : DFATableType) : Prop :=
  Core initialState NFATable tbl ∧
    ∀ i < tbl.length, tableMarked tbl i = true → ∀ c ∈ syms, MoveOK NFATable tbl i c

/-- The number of marked states of the table. -/
def markedCount (tbl : DFATableType) : Nat :=
  ((Finset.range tbl.length).filter (fun i => tableMarked tbl i = true)).card

/-- Runs of the NFA with epsilon transitions: `NfaRun NFATable s w t` says that
the NFA can go from state `s` to state `t` reading the word `w`.  An epsilon
transition (`'E'`) reads nothing; a transition on an input symbol `a`, which
is not the reserved symbol `'E'`, reads `a`. -/
inductive NfaRun (NFATable : NFATableType) : Int → List Char → Int → Prop
  | done (s : Int) : NfaRun NFATable s [] s
  | eps {s t u : Int} {w : List Char} :
      t ∈ nfaAt NFATable s 'E' → NfaRun NFATable t w u → NfaRun NFATable s w u
  | sym {s t u : Int} {a : Char} {w : List Char} :
      a ≠ 'E' → t ∈ nfaAt NFATable s a → NfaRun NFATable t w u →
      NfaRun NFATable s (a :: w) u

/-- The NFA accepts `w`: some run from the start state on `w` ends in an
accepting state. -/
def nfaAccepts (NFATable : NFATableType) (initialState : Int) (finalStates : List Int)
    (w : List Char) : Prop :=
  ∃ f ∈ finalStates, NfaRun NFATable initialState w f

/-- One transition of the DFA described by the table: the entry `moves[a]` of
state `q`, where `-1` (or no entry) means that the DFA rejects. -/
def dfaStep (DFATable : DFATableType) (q : Nat) (a : Char) : Option Nat :=
  match tableMoves DFATable q a with
  | some j => if j = -1 then none else some j.toNat
  | none => none

/-- The state that the DFA reaches from `q` on the word `w`, if it does not
reject on the way. -/
def dfaRun (DFATable : DFATableType) : Nat → List Char → Option Nat
  | q, [] => some q
  | q, a :: w =>
    match dfaStep DFATable q a with
    | some r => dfaRun DFATable r w
    | none => none

/-- The DFA described by the table, with start state `0` and with the
accepting states `findFinalDFAStates`, accepts `w`. -/
def dfaAccepts (DFATable : DFATableType) (finalStates : List Int) (w : List Char) : Bool :=
  match dfaRun DFATable 0 w with
  | some q => decide ((q : Int) ∈ findFinalDFAStates DFATable finalStates)
  | none => false

/-- The NFA of the concrete scenario of the specification: three states, an
epsilon transition from 1 to 2 and an `a`-transition from 2 to 3. -/
def scenarioNFA : NFATableType :=
  [(1, [('a', []), ('b', []), ('E', [2])]),
   (2, [('a', [3]), ('b', []), ('E', [])]),
   (3, [('a', []), ('b', []), ('E', [])])]

/-- The DFA table after the first `n` iterations of the `while` loop of
`subsetConstruction` (the final table, if the loop stops earlier). -/
def tableAfter (initialState : Int) (NFATable : NFATableType) (ALPHABET : List Char)
    (n : Nat) : DFATableType :=
  subsetLoop NFATable ALPHABET n (initialTable initialState NFATable)

/-- The two lists hold the same identifiers (they are equal as sets). -/
def SameIdentifiers (A B : List Int) : Prop :=
  ∀ x, x ∈ A ↔ x ∈ B

/-- An NFA without epsilon transitions: two states and an `a`-transition from
1 to 2. -/
def noEpsilonNFA : NFATableType :=
  [(1, [('a', [2]), ('E', [])]), (2, [('a', []), ('E', [])])]

/-- An NFA without epsilon transitions over the input symbols `a` and `b`:
state 1 loops on `a` and goes to state 2 on `b`.  Its description needs no
epsilon column, so `ALPHABET` is `a, b`. -/
def twoSymbolNFA : NFATableType :=
  [(1, [('a', [1]), ('b', [2])]), (2, [('a', []), ('b', [])])]

/-- Every entry of every `moves` map is an entry for one of the symbols `syms`
and holds `-1` or an index of the table. -/
def MovesWF (syms : List Char) (tbl : DFATableType) : Prop :=
  ∀ (k : Nat) (c : Char) (j : Int), tableMoves tbl k c = some j →
    c ∈ syms ∧ (j = -1 ∨ (0 ≤ j ∧ j < (tbl.length : Int)))

/-- One transition of the NFA: an epsilon transition or a transition on a
symbol of `ALPHABET`. -/
def NfaStep (NFATable : NFATableType) (ALPHABET : List Char) (s t : Int) : Prop :=
  t ∈ nfaAt NFATable s 'E' ∨ ∃ c ∈ ALPHABET, t ∈ nfaAt NFATable s c

/-- Reachability in the NFA by a path of epsilon and alphabet-symbol
transitions. -/
def NfaReach (NFATable : NFATableType) (ALPHABET : List Char) : Int → Int → Prop :=
  Relation.ReflTransGen (NfaStep NFATable ALPHABET)

/-- The list of DFA states is not empty, every constituent vector is non-empty
and every recorded transition destination is `-1` or an index smaller than the
number of states. -/
def TableWF (tbl : DFATableType) : Prop :=
  0 < tbl.length ∧
  (∀ i < tbl.length, tableStates tbl i ≠ []) ∧
  (∀ (k : Nat) (c : Char) (j : Int), tableMoves tbl k c = some j →
    j = -1 ∨ (0 ≤ j ∧ j < (tbl.length : Int)))

/-- The subsets of NFA states that the subset construction can discover with
the symbols `syms`: the closure of the start state, and every non-empty
`eclosure(move(S, a))` for a discovered `S` and a symbol `a` of `syms`. -/
inductive SubsetReach (initialState : Int) (NFATable : NFATableType) (syms : List Char) :
    List Int → Prop
  | start : SubsetReach initialState NFATable syms (eclosure [initialState] NFATable)
  | step {S : List Int} {a : Char} :
      SubsetReach initialState NFATable syms S → a ∈ syms →
      eclosure (move S a NFATable) NFATable ≠ [] →
      SubsetReach initialState NFATable syms (eclosure (move S a NFATable) NFATable)

/-- The destination constituent vector of DFA state `k` on the symbol `a`:
the constituent vector of the state that `moves[a]` names, `none` when
`moves[a]` is `-1` or there is no entry. -/
def dfaDest (DFATable : DFATableType) (k : Nat) (a : Char) : Option (List Int) :=
  match tableMoves DFATable k a with
  | some j => if j = -1 then none else some (tableStates DFATable j.toNat)
  | none => none

/-- The destination that the subset construction prescribes for the set `S`
on the symbol `a`, when the symbols `syms` are the ones considered. -/
def subsetDest (NFATable : NFATableType) (syms : List Char) (S : List Int) (a : Char) :
    Option (List Int) :=
  if a ∈ syms ∧ eclosure (move S a NFATable) NFATable ≠ [] then
    some (eclosure (move S a NFATable) NFATable)
  else none

/-- The table `std::map<int, DFAState>` itself: the list of its (key, value)
pairs in ascending key order, each key once; `size()` is the length of the
list. -/
abbrev DFAMapType := List (Int × DFAState)

/-- The value-initialised `DFAState` that `operator[]` creates for a key that
is not in the map. -/
def defaultDFAState : DFAState :=
  { marked := false, states := [], moves := [] }

/-- The value of the expression `DFATable[i]` on the map. -/
def mapAt (DFATable : DFAMapType) (i : Int) : DFAState :=
  match DFATable.lookup i with
  | some s => s
  | none => defaultDFAState

/-- The map after the value of key `i` has been set to `s`: the value is
replaced when the key exists, else the pair is inserted at its place in the
key order. -/
def mapAssign : DFAMapType → Int → DFAState → DFAMapType
  | [], i, s => [(i, s)]
  | e :: rest, i, s =>
    if i = e.1 then (i, s) :: rest
    else if i < e.1 then (i, s) :: e :: rest
    else e :: mapAssign rest i s

/-- The map after the access `DFATable[k]` through the reference: a key that is
missing is created with the value-initialised state. -/
def mapTouch (DFATable : DFAMapType) (k : Int) : DFAMapType :=
  mapAssign DFATable k (mapAt DFATable k)

/-- The statement `DFATable[k].marked = true` on the map. -/
def mapMark (DFATable : DFAMapType) (k : Int) : DFAMapType :=
  mapAssign DFATable k { mapAt DFATable k with marked := true }

/-- The statement `DFATable[k].moves[w] = j` on the map. -/
def mapSetMove (DFATable : DFAMapType) (k : Int) (w : Char) (j : Int) : DFAMapType :=
  mapAssign DFATable k
    { mapAt DFATable k with moves := movesAssign (mapAt DFATable k).moves w j }

/-- The loop of `isAnythingUnmarked` on the map, with `n` iterations left and
the loop variable at `i`. -/
def isAnythingUnmarkedMapLoop (DFATable : DFAMapType) : Nat → Int → Int
  | 0, _ => -1
  | n + 1, i =>
    if !(mapAt DFATable i).marked then i
    else isAnythingUnmarkedMapLoop DFATable n (i + 1)

/-- The function `isAnythingUnmarked` on the map: `size` is read once, then
`DFATable[i]` is inspected for `i = 0 .. size-1`. -/
def isAnythingUnmarkedMap (DFATable : DFAMapType) : Int :=
  isAnythingUnmarkedMapLoop DFATable DFATable.length 0

/-- The loop of `isAMember` on the map, with `n` iterations left and the loop
variable at `i`. -/
def isAMemberMapLoop (state : List Int) (DFATable : DFAMapType) : Nat → Int → Int
  | 0, _ => -1
  | n + 1, i =>
    if (mapAt DFATable i).states = state then i
    else isAMemberMapLoop state DFATable n (i + 1)

/-- The function `isAMember` on the map. -/
def isAMemberMap (state : List Int) (DFATable : DFAMapType) : Int :=
  isAMemberMapLoop state DFATable DFATable.length 0

/-- The body of the `for` loop of `subsetConstruction` on the pair
(`DFATable`, `currentDFAStateNumber`). -/
def subsetSymbolMap (NFATable : NFATableType) (k : Int) (w : Char)
    (st : DFAMapType × Int) : DFAMapType × Int :=
  let DFATable := mapTouch st.1 k
  let theMove := move (mapAt DFATable k).states w NFATable
  let alphaMove := eclosure theMove NFATable
  let j := isAMemberMap alphaMove DFATable
  if j ≥ 0 then
    (mapSetMove DFATable k w j, st.2)
  else if !alphaMove.isEmpty then
    (mapSetMove (mapAssign DFATable st.2 (newDFAState false alphaMove)) k w st.2, st.2 + 1)
  else
    (mapSetMove DFATable k w (-1), st.2)

/-- The `for` loop over the symbols `ws` on the map. -/
def subsetSymbolsMap (NFATable : NFATableType) (k : Int) :
    List Char → DFAMapType × Int → DFAMapType × Int
  | [], st => st
  | w :: rest, st => subsetSymbolsMap NFATable k rest (subsetSymbolMap NFATable k w st)

/-- The body of the `while` loop of `subsetConstruction` on the map. -/
def subsetIterationMap (NFATable : NFATableType) (ALPHABET : List Char)
    (st : DFAMapType × Int) : DFAMapType × Int :=
  let k := isAnythingUnmarkedMap st.1
  subsetSymbolsMap NFATable k (iteratedSymbols ALPHABET) (mapMark st.1 k, st.2)

/-- The `while` loop of `subsetConstruction` on the map, run for at most `fuel`
iterations. -/
def subsetLoopMap (NFATable : NFATableType) (ALPHABET : List Char) :
    Nat → DFAMapType × Int → DFAMapType × Int
  | 0, st => st
  | fuel + 1, st =>
    if isAnythingUnmarkedMap st.1 ≥ 0 then
      subsetLoopMap NFATable ALPHABET fuel (subsetIterationMap NFATable ALPHABET st)
    else st

/-- The pair (`DFATable`, `currentDFAStateNumber`) with which the `while` loop
is entered: the counter starts at 0, `eclosure({initialState})` is stored under
the key 0 of the table passed by reference, and the counter becomes 1. -/
def initialDriverState (initialState : Int) (NFATable : NFATableType)
    (DFATable : DFAMapType) : DFAMapType × Int :=
  (mapAssign DFATable 0 (newDFAState false (eclosure [initialState] NFATable)), 0 + 1)

/-- The function `subsetConstruction` on the map `DFATable` that it receives by
reference, returning the final pair (`DFATable`, `currentDFAStateNumber`).
`main` passes the empty global `DFA_STATE_TABLE`. -/
def subsetConstructionMap (initialState : Int) (_finalStates : List Int)
    (NFATable : NFATableType) (ALPHABET : List Char) (DFATable : DFAMapType) :
    DFAMapType × Int :=
  subsetLoopMap NFATable ALPHABET (subsetFuel initialState NFATable)
    (initialDriverState initialState NFATable DFATable)

/-- The pair (`DFATable`, `currentDFAStateNumber`) after the first `n`
iterations of the `while` loop, started on the empty table. -/
def driverAfter (initialState : Int) (NFATable : NFATableType) (ALPHABET : List Char)
    (n : Nat) : DFAMapType × Int :=
  subsetLoopMap NFATable ALPHABET n (initialDriverState initialState NFATable [])

/-- The map with the keys `i, i+1, ...` whose values are the members of the
list, in order. -/
def toMapFrom (i : Nat) : List DFAState → DFAMapType
  | [] => []
  | s :: rest => ((i : Int), s) :: toMapFrom (i + 1) rest

/-- The map with the keys `0 .. n-1` whose values are the members of the list. -/
def toMap (tbl : DFATableType) : DFAMapType :=
  toMapFrom 0 tbl

/-- Well-formedness of the pair (`DFATable`, `currentDFAStateNumber`): the keys
of the map are exactly `0 .. n-1` for `n` the number of DFA states, the
counter is `n`, every constituent vector is non-empty, and every recorded
transition destination is `-1` or an index smaller than `n`. -/
def DriverWF (st : DFAMapType × Int) : Prop :=
  0 < st.1.length ∧
  st.1.map Prod.fst = (List.range st.1.length).map (fun i : Nat => (i : Int)) ∧
  st.2 = (st.1.length : Int) ∧
  (∀ e ∈ st.1, e.2.states ≠ []) ∧
  (∀ e ∈ st.1, ∀ (c : Char) (j : Int), e.2.moves.lookup c = some j →
    j = -1 ∨ (0 ≤ j ∧ j < (st.1.length : Int)))

/-! ## Theorems -/

theorem doesVectorContain_iff (vec : List Int) (key : Int) :
    doesVectorContain vec key = true ↔ key ∈ vec := by
  induction vec with
  | nil => simp [doesVectorContain]
  | cons k rest ih =>
    unfold doesVectorContain
    by_cases h : k = key
    · simp [h]
    · have h2 : ¬ key = k := fun e => h e.symm
      simp [h, h2, ih]

theorem doesVectorContain_false_iff (vec : List Int) (key : Int) :
    (!(doesVectorContain vec key)) = true ↔ key ∉ vec := by
  rw [← doesVectorContain_iff]; simp

theorem nfaAt_subset_nfaDests (NFATable : NFATableType) (s : Int) (c : Char) :
    ∀ x ∈ nfaAt NFATable s c, x ∈ nfaDests NFATable := by
  intro x hx
  unfold nfaAt at hx
  cases h1 : NFATable.lookup s with
  | none => simp [h1] at hx
  | some m =>
    simp only [h1] at hx
    cases h2 : m.lookup c with
    | none => simp [h2] at hx
    | some v =>
      simp only [h2, Option.getD_some] at hx
      have e1 : (s, m) ∈ NFATable := by
        have := List.lookup_eq_some_iff.mp h1
        obtain ⟨l1, l2, rfl, -⟩ := this
        simp
      have e2 : (c, v) ∈ m := by
        have := List.lookup_eq_some_iff.mp h2
        obtain ⟨l1, l2, rfl, -⟩ := this
        simp
      unfold nfaDests
      simp only [List.mem_flatten, List.mem_map]
      refine ⟨_, ⟨(s, m), e1, rfl⟩, ?_⟩
      simp only [List.mem_flatten, List.mem_map]
      exact ⟨v, ⟨(c, v), e2, rfl⟩, hx⟩

/-- What the inner loop of `eclosure` does: it appends a list `X` of new
states to the closure and pushes them on the stack. -/
theorem eclosureInner_spec (em : List Int) : ∀ (ecl st : List Int),
    ∃ X : List Int, (eclosureInner em ecl st).1 = ecl ++ X ∧
      (eclosureInner em ecl st).2 = X.reverse ++ st ∧
      (∀ x ∈ X, x ∈ em ∧ x ∉ ecl) ∧ X.Nodup ∧ (∀ x ∈ em, x ∈ ecl ∨ x ∈ X) := by
  induction em with
  | nil => intro ecl st; exact ⟨[], by simp [eclosureInner]⟩
  | cons i rest ih =>
    intro ecl st
    by_cases h : i ∈ ecl
    · obtain ⟨X, h1, h2, h3, h4, h5⟩ := ih ecl st
      have hc : (!(doesVectorContain ecl i)) = false := by
        simp [(doesVectorContain_iff ecl i).mpr h]
      refine ⟨X, ?_, ?_, ?_, h4, ?_⟩
      · simp [eclosureInner, hc, h1]
      · simp [eclosureInner, hc, h2]
      · intro x hx; exact ⟨List.mem_cons_of_mem _ (h3 x hx).1, (h3 x hx).2⟩
      · intro x hx
        rcases List.mem_cons.mp hx with rfl | hx
        · exact Or.inl h
        · exact h5 x hx
    · obtain ⟨X, h1, h2, h3, h4, h5⟩ := ih (ecl ++ [i]) (i :: st)
      have hc : (!(doesVectorContain ecl i)) = true :=
        (doesVectorContain_false_iff ecl i).mpr h
      refine ⟨i :: X, ?_, ?_, ?_, ?_, ?_⟩
      · simp [eclosureInner, hc, h1]
      · simp [eclosureInner, hc, h2]
      · intro x hx
        rcases List.mem_cons.mp hx with rfl | hx
        · exact ⟨List.mem_cons_self _ _, h⟩
        · have := h3 x hx
          exact ⟨List.mem_cons_of_mem _ this.1, fun hh => this.2 (List.mem_append_left _ hh)⟩
      · refine List.nodup_cons.mpr ⟨?_, h4⟩
        intro hi
        exact (h3 i hi).2 (by simp)
      · intro x hx
        rcases List.mem_cons.mp hx with rfl | hx
        · exact Or.inr (List.mem_cons_self _ _)
        · rcases h5 x hx with h6 | h6
          · rcases List.mem_append.mp h6 with h7 | h7
            · exact Or.inl h7
            · simp at h7; subst h7; exact Or.inr (List.mem_cons_self _ _)
          · exact Or.inr (List.mem_cons_of_mem _ h6)

/-- Induction principle for the `while` loop of `eclosure`: a property of
(closure, stack) kept by every iteration holds when the loop stops. -/
theorem eclosureLoop_induct (NFATable : NFATableType) (P : List Int → List Int → Prop)
    (hstep : ∀ ecl cur st, P ecl (cur :: st) →
      P (eclosureInner (nfaAt NFATable cur 'E') ecl st).1
        (eclosureInner (nfaAt NFATable cur 'E') ecl st).2) :
    ∀ (fuel : Nat) (ecl st : List Int), P ecl st →
      P (eclosureLoop NFATable fuel ecl st).1 (eclosureLoop NFATable fuel ecl st).2 := by
  intro fuel
  induction fuel with
  | zero => intro ecl st h; simpa [eclosureLoop] using h
  | succ n ih =>
    intro ecl st h
    cases st with
    | nil => simpa [eclosureLoop] using h
    | cons cur st =>
      simp only [eclosureLoop]
      exact ih _ _ (hstep ecl cur st h)

theorem eclosureMeasure_step (NFATable : NFATableType) (ecl st : List Int) (cur : Int) :
    eclosureMeasure NFATable (eclosureInner (nfaAt NFATable cur 'E') ecl st).1
        (eclosureInner (nfaAt NFATable cur 'E') ecl st).2 + 1
      ≤ eclosureMeasure NFATable ecl (cur :: st) := by
  obtain ⟨X, h1, h2, h3, h4, -⟩ := eclosureInner_spec (nfaAt NFATable cur 'E') ecl st
  rw [h1, h2]
  unfold eclosureMeasure
  have hsub : X.toFinset ⊆ (nfaDests NFATable).toFinset \ ecl.toFinset := by
    intro x hx
    rw [List.mem_toFinset] at hx
    rw [Finset.mem_sdiff, List.mem_toFinset, List.mem_toFinset]
    exact ⟨nfaAt_subset_nfaDests NFATable cur 'E' x (h3 x hx).1, (h3 x hx).2⟩
  have hset : (nfaDests NFATable).toFinset \ (ecl ++ X).toFinset
      = ((nfaDests NFATable).toFinset \ ecl.toFinset) \ X.toFinset := by
    rw [List.toFinset_append, Finset.sdiff_union_distrib]
    ext x
    simp only [Finset.mem_inter, Finset.mem_sdiff]
    tauto
  have hcard := Finset.card_sdiff_add_card_eq_card hsub
  rw [List.toFinset_card_of_nodup h4] at hcard
  rw [hset]
  simp only [List.length_append, List.length_reverse, List.length_cons]
  omega

/-- With at least `eclosureMeasure` iterations available, the `while` loop of
`eclosure` stops on an empty stack. -/
theorem eclosureLoop_stack_empty (NFATable : NFATableType) :
    ∀ (fuel : Nat) (ecl st : List Int), eclosureMeasure NFATable ecl st ≤ fuel →
      (eclosureLoop NFATable fuel ecl st).2 = [] := by
  intro fuel
  induction fuel with
  | zero =>
    intro ecl st h
    have : st.length = 0 := by unfold eclosureMeasure at h; omega
    simp [eclosureLoop, List.length_eq_zero.mp this]
  | succ n ih =>
    intro ecl st h
    cases st with
    | nil => simp [eclosureLoop]
    | cons cur st =>
      simp only [eclosureLoop]
      apply ih
      have := eclosureMeasure_step NFATable ecl st cur
      omega

/-- The iteration bound used by `eclosure` is never exhausted: the loop ends
because the stack is empty. -/
theorem eclosureLoop_fuel_enough (T : List Int) (NFATable : NFATableType) :
    (eclosureLoop NFATable (eclosureFuel T NFATable) T T.reverse).2 = [] := by
  apply eclosureLoop_stack_empty
  unfold eclosureMeasure eclosureFuel
  have h1 : ((nfaDests NFATable).toFinset \ T.toFinset).card ≤ (nfaDests NFATable).toFinset.card :=
    Finset.card_le_card Finset.sdiff_subset
  have h2 := List.toFinset_card_le (nfaDests NFATable)
  simp only [List.length_reverse]
  omega

/-- More iterations than needed do not change the result of the loop. -/
theorem eclosureLoop_stable (NFATable : NFATableType) :
    ∀ (fuel : Nat) (ecl st : List Int), (eclosureLoop NFATable fuel ecl st).2 = [] →
      ∀ extra, eclosureLoop NFATable (fuel + extra) ecl st = eclosureLoop NFATable fuel ecl st := by
  intro fuel
  induction fuel with
  | zero =>
    intro ecl st h extra
    simp only [eclosureLoop] at h
    subst h
    cases extra <;> simp [eclosureLoop]
  | succ n ih =>
    intro ecl st h extra
    cases st with
    | nil => rw [Nat.add_right_comm]; simp [eclosureLoop]
    | cons cur st =>
      rw [Nat.add_right_comm]
      simp only [eclosureLoop] at h ⊢
      exact ih _ _ h extra

theorem eclSound_step (NFATable : NFATableType) (T ecl st : List Int) (cur : Int)
    (h : EclSound NFATable T ecl (cur :: st)) :
    EclSound NFATable T (eclosureInner (nfaAt NFATable cur 'E') ecl st).1
      (eclosureInner (nfaAt NFATable cur 'E') ecl st).2 := by
  obtain ⟨X, h1, h2, h3, -, -⟩ := eclosureInner_spec (nfaAt NFATable cur 'E') ecl st
  rw [h1, h2]
  obtain ⟨ha, hb⟩ := h
  constructor
  · intro x hx
    rcases List.mem_append.mp hx with hx | hx
    · exact ha x hx
    · obtain ⟨t, ht, hr⟩ := ha cur (hb cur (List.mem_cons_self _ _))
      exact ⟨t, ht, hr.tail (h3 x hx).1⟩
  · intro x hx
    rcases List.mem_append.mp hx with hx | hx
    · exact List.mem_append_right _ (List.mem_reverse.mp hx)
    · exact List.mem_append_left _ (hb x (List.mem_cons_of_mem _ hx))

theorem eclComplete_step (NFATable : NFATableType) (T ecl st : List Int) (cur : Int)
    (h : EclComplete NFATable T ecl (cur :: st)) :
    EclComplete NFATable T (eclosureInner (nfaAt NFATable cur 'E') ecl st).1
      (eclosureInner (nfaAt NFATable cur 'E') ecl st).2 := by
  obtain ⟨X, h1, h2, -, -, h5⟩ := eclosureInner_spec (nfaAt NFATable cur 'E') ecl st
  rw [h1, h2]
  obtain ⟨ha, hb⟩ := h
  constructor
  · intro t ht; exact List.mem_append_left _ (ha t ht)
  · intro x hx
    rcases List.mem_append.mp hx with hx | hx
    · rcases hb x hx with h6 | h6
      · rcases List.mem_cons.mp h6 with rfl | h7
        · right
          intro u hu
          rcases h5 u hu with h8 | h8
          · exact List.mem_append_left _ h8
          · exact List.mem_append_right _ h8
        · left; exact List.mem_append_right _ h7
      · right; intro u hu; exact List.mem_append_left _ (h6 u hu)
    · left; exact List.mem_append_left _ (List.mem_reverse.mpr hx)

theorem eclNodup_step (NFATable : NFATableType) (ecl st : List Int) (cur : Int)
    (h : ecl.Nodup) : (eclosureInner (nfaAt NFATable cur 'E') ecl st).1.Nodup := by
  obtain ⟨X, h1, -, h3, h4, -⟩ := eclosureInner_spec (nfaAt NFATable cur 'E') ecl st
  rw [h1]
  refine List.Nodup.append h h4 ?_
  intro x hx hx2
  exact (h3 x hx2).2 hx

theorem eclosure_eq_sort (T : List Int) (NFATable : NFATableType) :
    eclosure T NFATable = (eclosureRaw T NFATable).insertionSort (· ≤ ·) := rfl

theorem mem_eclosure_raw (T : List Int) (NFATable : NFATableType) (s : Int) :
    s ∈ eclosure T NFATable ↔ s ∈ eclosureRaw T NFATable := by
  rw [eclosure_eq_sort, List.mem_insertionSort]

theorem eclosureRaw_sound (T : List Int) (NFATable : NFATableType) :
    ∀ x ∈ eclosureRaw T NFATable, ∃ t ∈ T, EpsReach NFATable t x := by
  have := eclosureLoop_induct NFATable (fun ecl st => EclSound NFATable T ecl st)
    (fun ecl cur st h => eclSound_step NFATable T ecl st cur h)
    (eclosureFuel T NFATable) T T.reverse
    ⟨fun x hx => ⟨x, hx, Relation.ReflTransGen.refl⟩, fun x hx => List.mem_reverse.mp hx⟩
  exact this.1

theorem eclosureRaw_complete (T : List Int) (NFATable : NFATableType) :
    (∀ t ∈ T, t ∈ eclosureRaw T NFATable) ∧
      ∀ x ∈ eclosureRaw T NFATable, ∀ u ∈ nfaAt NFATable x 'E', u ∈ eclosureRaw T NFATable := by
  have := eclosureLoop_induct NFATable (fun ecl st => EclComplete NFATable T ecl st)
    (fun ecl cur st h => eclComplete_step NFATable T ecl st cur h)
    (eclosureFuel T NFATable) T T.reverse
    ⟨fun t ht => ht, fun x hx => Or.inl (List.mem_reverse.mpr hx)⟩
  refine ⟨this.1, ?_⟩
  intro x hx
  have h2 := this.2 x hx
  rw [eclosureLoop_fuel_enough] at h2
  simpa using h2

theorem eclosureRaw_nodup (T : List Int) (NFATable : NFATableType) (h : T.Nodup) :
    (eclosureRaw T NFATable).Nodup :=
  eclosureLoop_induct NFATable (fun ecl _ => ecl.Nodup)
    (fun ecl cur st h => eclNodup_step NFATable ecl st cur h)
    (eclosureFuel T NFATable) T T.reverse h

/-- Membership in `eclosure`: reachability by epsilon transitions. -/
theorem mem_eclosure_iff (T : List Int) (NFATable : NFATableType) (s : Int) :
    s ∈ eclosure T NFATable ↔ ∃ t ∈ T, EpsReach NFATable t s := by
  rw [mem_eclosure_raw]
  constructor
  · exact eclosureRaw_sound T NFATable s
  · rintro ⟨t, ht, hr⟩
    obtain ⟨h1, h2⟩ := eclosureRaw_complete T NFATable
    induction hr with
    | refl => exact h1 t ht
    | tail _ hstep ih => exact h2 _ ih _ hstep

theorem eclosure_sorted_le (T : List Int) (NFATable : NFATableType) :
    (eclosure T NFATable).Sorted (· ≤ ·) :=
  List.sorted_insertionSort _ _

/-- On a duplicate-free input the result of `eclosure` is strictly increasing. -/
theorem eclosure_sorted_lt (T : List Int) (NFATable : NFATableType) (h : T.Nodup) :
    (eclosure T NFATable).Sorted (· < ·) := by
  apply (eclosure_sorted_le T NFATable).lt_of_le
  rw [eclosure_eq_sort]
  exact (List.perm_insertionSort _ _).nodup_iff.mpr (eclosureRaw_nodup T NFATable h)

theorem eclosure_closed (T : List Int) (NFATable : NFATableType) :
    ∀ s ∈ eclosure T NFATable, ∀ u ∈ nfaAt NFATable s 'E', u ∈ eclosure T NFATable := by
  intro s hs u hu
  rw [mem_eclosure_raw] at hs ⊢
  exact (eclosureRaw_complete T NFATable).2 s hs u hu

theorem subset_eclosure (T : List Int) (NFATable : NFATableType) :
    ∀ t ∈ T, t ∈ eclosure T NFATable := by
  intro t ht
  rw [mem_eclosure_raw]
  exact (eclosureRaw_complete T NFATable).1 t ht

theorem eclosureLoop_nil (NFATable : NFATableType) (fuel : Nat) :
    eclosureLoop NFATable fuel [] [] = ([], []) := by
  cases fuel <;> rfl

theorem eclosure_nil (NFATable : NFATableType) : eclosure [] NFATable = [] := by
  simp [eclosure, eclosureLoop_nil]

theorem eclosure_eq_nil_iff (T : List Int) (NFATable : NFATableType) :
    eclosure T NFATable = [] ↔ T = [] := by
  constructor
  · intro h
    cases T with
    | nil => rfl
    | cons t rest =>
      have := subset_eclosure (t :: rest) NFATable t (List.mem_cons_self _ _)
      rw [h] at this
      exact absurd this (List.not_mem_nil _)
  · rintro rfl; exact eclosure_nil NFATable

/-- On a list that is already closed under epsilon transitions the loop of
`eclosure` adds nothing. -/
theorem eclosureRaw_of_closed (E : List Int) (NFATable : NFATableType)
    (hcl : ∀ s ∈ E, ∀ u ∈ nfaAt NFATable s 'E', u ∈ E) : eclosureRaw E NFATable = E := by
  have := eclosureLoop_induct NFATable (fun ecl st => ecl = E ∧ ∀ x ∈ st, x ∈ E)
    (by
      intro ecl cur st h
      obtain ⟨rfl, hst⟩ := h
      obtain ⟨X, h1, h2, h3, -, -⟩ := eclosureInner_spec (nfaAt NFATable cur 'E') ecl st
      have hX : X = [] := by
        apply List.eq_nil_iff_forall_not_mem.mpr
        intro x hx
        exact (h3 x hx).2 (hcl cur (hst cur (List.mem_cons_self _ _)) x (h3 x hx).1)
      subst hX
      rw [h1, h2]
      refine ⟨by simp, ?_⟩
      intro x hx
      exact hst x (List.mem_cons_of_mem _ (by simpa using hx)))
    (eclosureFuel E NFATable) E E.reverse ⟨rfl, fun x hx => List.mem_reverse.mp hx⟩
  exact this.1

theorem eclosure_of_closed (E : List Int) (NFATable : NFATableType)
    (hs : E.Sorted (· ≤ ·))
    (hcl : ∀ s ∈ E, ∀ u ∈ nfaAt NFATable s 'E', u ∈ E) : eclosure E NFATable = E := by
  rw [eclosure_eq_sort, eclosureRaw_of_closed E NFATable hcl]
  exact hs.insertionSort_eq

/-! ### Move -/

theorem moveInner_cons_mem (k : Int) (rest ans : List Int) (h : k ∈ ans) :
    moveInner (k :: rest) ans = moveInner rest ans := by
  simp [moveInner, (doesVectorContain_iff ans k).mpr h]

theorem moveInner_cons_not_mem (k : Int) (rest ans : List Int) (h : k ∉ ans) :
    moveInner (k :: rest) ans = moveInner rest (ans ++ [k]) := by
  simp [moveInner, (doesVectorContain_false_iff ans k).mpr h]

theorem moveInner_mem (em : List Int) : ∀ (ans : List Int) (x : Int),
    x ∈ moveInner em ans ↔ x ∈ ans ∨ x ∈ em := by
  induction em with
  | nil => intro ans x; simp [moveInner]
  | cons k rest ih =>
    intro ans x
    by_cases h : k ∈ ans
    · rw [moveInner_cons_mem k rest ans h, ih, List.mem_cons]
      constructor
      · rintro (h1 | h1)
        · exact Or.inl h1
        · exact Or.inr (Or.inr h1)
      · rintro (h1 | rfl | h1)
        · exact Or.inl h1
        · exact Or.inl h
        · exact Or.inr h1
    · rw [moveInner_cons_not_mem k rest ans h, ih, List.mem_cons, List.mem_append,
        List.mem_singleton]
      tauto

theorem moveInner_nodup (em : List Int) : ∀ (ans : List Int), ans.Nodup →
    (moveInner em ans).Nodup := by
  induction em with
  | nil => intro ans h; simpa [moveInner] using h
  | cons k rest ih =>
    intro ans h
    by_cases hk : k ∈ ans
    · rw [moveInner_cons_mem k rest ans hk]
      exact ih ans h
    · rw [moveInner_cons_not_mem k rest ans hk]
      apply ih
      refine List.Nodup.append h (List.nodup_singleton k) ?_
      intro x hx hx2
      rw [List.mem_singleton] at hx2
      subst hx2
      exact hk hx

theorem moveOuter_mem (NFATable : NFATableType) (mv : Char) (T : List Int) :
    ∀ (ans : List Int) (x : Int),
      x ∈ moveOuter NFATable mv T ans ↔ x ∈ ans ∨ ∃ t ∈ T, x ∈ nfaAt NFATable t mv := by
  induction T with
  | nil => intro ans x; simp [moveOuter]
  | cons j rest ih =>
    intro ans x
    simp only [moveOuter, ih, moveInner_mem, List.mem_cons, exists_eq_or_imp]
    tauto

theorem moveOuter_nodup (NFATable : NFATableType) (mv : Char) (T : List Int) :
    ∀ (ans : List Int), ans.Nodup → (moveOuter NFATable mv T ans).Nodup := by
  induction T with
  | nil => intro ans h; simpa [moveOuter] using h
  | cons j rest ih =>
    intro ans h
    simp only [moveOuter]
    exact ih _ (moveInner_nodup _ _ h)

theorem mem_move_iff (T : List Int) (mv : Char) (NFATable : NFATableType) (s : Int) :
    s ∈ move T mv NFATable ↔ ∃ t ∈ T, s ∈ nfaAt NFATable t mv := by
  unfold move
  rw [List.mem_insertionSort, moveOuter_mem]
  simp

theorem move_sorted_lt (T : List Int) (mv : Char) (NFATable : NFATableType) :
    (move T mv NFATable).Sorted (· < ·) := by
  unfold move
  apply (List.sorted_insertionSort (· ≤ ·) _).lt_of_le
  exact (List.perm_insertionSort _ _).nodup_iff.mpr
    (moveOuter_nodup NFATable mv T [] List.nodup_nil)

theorem move_nil (mv : Char) (NFATable : NFATableType) : move [] mv NFATable = [] := by
  simp [move, moveOuter]

/-! ### Accepting DFA states -/

theorem findFinalInner_mem (states : List Int) (i : Nat) (fs : List Int) :
    ∀ (finals : List Int) (x : Int),
      x ∈ findFinalInner states i fs finals ↔
        x ∈ finals ∨ (x = (i : Int) ∧ ∃ k ∈ fs, k ∈ states) := by
  induction fs with
  | nil => intro finals x; simp [findFinalInner]
  | cons k rest ih =>
    intro finals x
    by_cases h : k ∈ states
    · have hc := (doesVectorContain_iff states k).mpr h
      simp only [findFinalInner, hc, if_true, ih, List.mem_append, List.mem_singleton,
        List.mem_cons, exists_eq_or_imp]
      tauto
    · have hc : doesVectorContain states k = false := by
        cases hd : doesVectorContain states k
        · rfl
        · exact absurd ((doesVectorContain_iff states k).mp hd) h
      simp only [findFinalInner, hc, Bool.false_eq_true, if_false, ih, List.mem_cons,
        exists_eq_or_imp]
      simp [h]

theorem findFinalOuter_mem (fs : List Int) (rest : List DFAState) :
    ∀ (i : Nat) (finals : List Int) (x : Int),
      x ∈ findFinalOuter fs i rest finals ↔
        x ∈ finals ∨ ∃ n : Nat, n < rest.length ∧ x = ((i + n : Nat) : Int) ∧
          ∃ k ∈ fs, k ∈ tableStates rest n := by
  induction rest with
  | nil => intro i finals x; simp [findFinalOuter]
  | cons cur rest ih =>
    intro i finals x
    simp only [findFinalOuter, ih, findFinalInner_mem]
    constructor
    · rintro ((h | ⟨h1, h2⟩) | ⟨n, hn, hx, hk⟩)
      · exact Or.inl h
      · exact Or.inr ⟨0, by simp, by simpa using h1, by simpa [tableStates] using h2⟩
      · refine Or.inr ⟨n + 1, by simpa using hn, ?_, ?_⟩
        · rw [hx]; congr 1; omega
        · simpa [tableStates] using hk
    · rintro (h | ⟨n, hn, hx, hk⟩)
      · exact Or.inl (Or.inl h)
      · cases n with
        | zero => exact Or.inl (Or.inr ⟨by simpa using hx, by simpa [tableStates] using hk⟩)
        | succ m =>
          refine Or.inr ⟨m, by simpa using hn, ?_, by simpa [tableStates] using hk⟩
          rw [hx]; congr 1; omega

theorem mem_findFinalDFAStates (DFATable : DFATableType) (finalStates : List Int) (x : Int) :
    x ∈ findFinalDFAStates DFATable finalStates ↔
      ∃ n : Nat, n < DFATable.length ∧ x = (n : Int) ∧
        ∃ k ∈ finalStates, k ∈ tableStates DFATable n := by
  unfold findFinalDFAStates
  rw [findFinalOuter_mem]
  simp

/-! ### Reading and updating the DFA table -/

theorem lookup_cons_same (d : Char) (v : Int) (rest : List (Char × Int)) :
    List.lookup d ((d, v) :: rest) = some v := by
  simp [List.lookup_cons]

theorem lookup_cons_other (d e : Char) (v : Int) (rest : List (Char × Int)) (h : d ≠ e) :
    List.lookup d ((e, v) :: rest) = List.lookup d rest := by
  have hb : (d == e) = false := by simpa using h
  simp [List.lookup_cons, hb]

theorem movesAssign_lookup (moves : List (Char × Int)) (c : Char) (j : Int) (d : Char) :
    (movesAssign moves c j).lookup d = if d = c then some j else moves.lookup d := by
  induction moves with
  | nil =>
    by_cases h : d = c
    · subst h; simp [movesAssign, lookup_cons_same]
    · simp [movesAssign, lookup_cons_other d c j [] h, h]
  | cons e rest ih =>
    obtain ⟨e1, e2⟩ := e
    by_cases h1 : e1 = c
    · subst h1
      by_cases h : d = e1
      · subst h; simp [movesAssign, lookup_cons_same]
      · simp [movesAssign, lookup_cons_other d e1 _ rest h, h]
    · by_cases h : d = c
      · subst h
        have h2 : d ≠ e1 := fun e => h1 e.symm
        simp [movesAssign, h1, lookup_cons_other d e1 _ _ h2, ih]
      · by_cases h2 : d = e1
        · subst h2; simp [movesAssign, h1, lookup_cons_same, h]
        · simp [movesAssign, h1, lookup_cons_other d e1 _ _ h2, ih, h]

theorem tableMark_length (tbl : DFATableType) (k : Nat) :
    (tableMark tbl k).length = tbl.length := by
  unfold tableMark
  cases tbl[k]? <;> simp

theorem tableSetMove_length (tbl : DFATableType) (k : Nat) (w : Char) (j : Int) :
    (tableSetMove tbl k w j).length = tbl.length := by
  unfold tableSetMove
  cases tbl[k]? <;> simp

theorem tableMark_states (tbl : DFATableType) (k i : Nat) :
    tableStates (tableMark tbl k) i = tableStates tbl i := by
  unfold tableMark
  cases h : tbl[k]? with
  | none => rfl
  | some s =>
    simp only [tableStates]
    by_cases hik : k = i
    · subst hik
      have hk : k < tbl.length := (List.getElem?_eq_some_iff.mp h).1
      simp [List.getElem?_set_self hk, h]
    · simp [List.getElem?_set_ne hik]

theorem tableMark_moves (tbl : DFATableType) (k i : Nat) (c : Char) :
    tableMoves (tableMark tbl k) i c = tableMoves tbl i c := by
  unfold tableMark
  cases h : tbl[k]? with
  | none => rfl
  | some s =>
    simp only [tableMoves]
    by_cases hik : k = i
    · subst hik
      have hk : k < tbl.length := (List.getElem?_eq_some_iff.mp h).1
      simp [List.getElem?_set_self hk, h]
    · simp [List.getElem?_set_ne hik]

theorem tableMark_marked (tbl : DFATableType) (k i : Nat) :
    tableMarked (tableMark tbl k) i =
      if i = k ∧ k < tbl.length then true else tableMarked tbl i := by
  unfold tableMark
  cases h : tbl[k]? with
  | none =>
    have hk : tbl.length ≤ k := List.getElem?_eq_none_iff.mp h
    have : ¬ (i = k ∧ k < tbl.length) := fun hh => absurd hh.2 (by omega)
    simp [this]
  | some s =>
    have hk : k < tbl.length := (List.getElem?_eq_some_iff.mp h).1
    simp only [tableMarked]
    by_cases hik : k = i
    · subst hik
      simp [List.getElem?_set_self hk, hk]
    · have : ¬ (i = k ∧ k < tbl.length) := fun hh => hik hh.1.symm
      simp [List.getElem?_set_ne hik, this]

theorem tableSetMove_states (tbl : DFATableType) (k : Nat) (w : Char) (j : Int) (i : Nat) :
    tableStates (tableSetMove tbl k w j) i = tableStates tbl i := by
  unfold tableSetMove
  cases h : tbl[k]? with
  | none => rfl
  | some s =>
    simp only [tableStates]
    by_cases hik : k = i
    · subst hik
      have hk : k < tbl.length := (List.getElem?_eq_some_iff.mp h).1
      simp [List.getElem?_set_self hk, h]
    · simp [List.getElem?_set_ne hik]

theorem tableSetMove_marked (tbl : DFATableType) (k : Nat) (w : Char) (j : Int) (i : Nat) :
    tableMarked (tableSetMove tbl k w j) i = tableMarked tbl i := by
  unfold tableSetMove
  cases h : tbl[k]? with
  | none => rfl
  | some s =>
    simp only [tableMarked]
    by_cases hik : k = i
    · subst hik
      have hk : k < tbl.length := (List.getElem?_eq_some_iff.mp h).1
      simp [List.getElem?_set_self hk, h]
    · simp [List.getElem?_set_ne hik]

theorem tableSetMove_moves (tbl : DFATableType) (k : Nat) (w : Char) (j : Int)
    (i : Nat) (c : Char) :
    tableMoves (tableSetMove tbl k w j) i c =
      if i = k ∧ c = w ∧ k < tbl.length then some j else tableMoves tbl i c := by
  unfold tableSetMove
  cases h : tbl[k]? with
  | none =>
    have hk : tbl.length ≤ k := List.getElem?_eq_none_iff.mp h
    have : ¬ (i = k ∧ c = w ∧ k < tbl.length) := fun hh => absurd hh.2.2 (by omega)
    simp [this]
  | some s =>
    have hk : k < tbl.length := (List.getElem?_eq_some_iff.mp h).1
    simp only [tableMoves]
    by_cases hik : k = i
    · subst hik
      simp only [List.getElem?_set_self hk, h, movesAssign_lookup, hk, true_and, and_true]
    · have : ¬ (i = k ∧ c = w ∧ k < tbl.length) := fun hh => hik hh.1.symm
      simp [List.getElem?_set_ne hik, this]

theorem tableStates_append_left (tbl ext : DFATableType) (i : Nat) (h : i < tbl.length) :
    tableStates (tbl ++ ext) i = tableStates tbl i := by
  simp [tableStates, List.getElem?_append_left h]

theorem tableMarked_append_left (tbl ext : DFATableType) (i : Nat) (h : i < tbl.length) :
    tableMarked (tbl ++ ext) i = tableMarked tbl i := by
  simp [tableMarked, List.getElem?_append_left h]

theorem tableMoves_append_left (tbl ext : DFATableType) (i : Nat) (c : Char)
    (h : i < tbl.length) : tableMoves (tbl ++ ext) i c = tableMoves tbl i c := by
  simp [tableMoves, List.getElem?_append_left h]

theorem tableStates_append_new (tbl : DFATableType) (s : DFAState) :
    tableStates (tbl ++ [s]) tbl.length = s.states := by
  simp [tableStates]

theorem tableMarked_append_new (tbl : DFATableType) (s : DFAState) :
    tableMarked (tbl ++ [s]) tbl.length = s.marked := by
  simp [tableMarked]

theorem tableMoves_append_new (tbl : DFATableType) (s : DFAState) (c : Char) :
    tableMoves (tbl ++ [s]) tbl.length c = s.moves.lookup c := by
  simp [tableMoves]

theorem tableStates_of_le (tbl : DFATableType) (i : Nat) (h : tbl.length ≤ i) :
    tableStates tbl i = [] := by
  simp [tableStates, List.getElem?_eq_none h]

/-! ### The two searches of the table -/

theorem isAMemberFrom_spec (state : List Int) (rest : List DFAState) : ∀ (i : Nat),
    (isAMemberFrom state i rest = -1 ∧ ∀ n < rest.length, tableStates rest n ≠ state) ∨
    (∃ n : Nat, n < rest.length ∧ isAMemberFrom state i rest = ((i + n : Nat) : Int) ∧
      tableStates rest n = state) := by
  induction rest with
  | nil => intro i; left; simp [isAMemberFrom]
  | cons cur rest ih =>
    intro i
    by_cases h : cur.states = state
    · right
      exact ⟨0, by simp, by simp [isAMemberFrom, h], by simpa [tableStates] using h⟩
    · rcases ih (i + 1) with ⟨h1, h2⟩ | ⟨n, hn, h1, h2⟩
      · left
        refine ⟨by simp [isAMemberFrom, h, h1], ?_⟩
        intro n hn
        cases n with
        | zero => simpa [tableStates] using h
        | succ m => simpa [tableStates] using h2 m (by simpa using hn)
      · right
        refine ⟨n + 1, by simpa using hn, ?_, by simpa [tableStates] using h2⟩
        simp only [isAMemberFrom, h, if_false, h1]
        congr 1; omega

theorem isAMember_spec (state : List Int) (tbl : DFATableType) :
    (isAMember state tbl = -1 ∧ ∀ n < tbl.length, tableStates tbl n ≠ state) ∨
    (∃ n : Nat, n < tbl.length ∧ isAMember state tbl = (n : Int) ∧
      tableStates tbl n = state) := by
  simpa [isAMember] using isAMemberFrom_spec state tbl 0

theorem isAnythingUnmarkedFrom_spec (rest : List DFAState) : ∀ (i : Nat),
    (isAnythingUnmarkedFrom i rest = -1 ∧ ∀ n < rest.length, tableMarked rest n = true) ∨
    (∃ n : Nat, n < rest.length ∧ isAnythingUnmarkedFrom i rest = ((i + n : Nat) : Int) ∧
      tableMarked rest n = false) := by
  induction rest with
  | nil => intro i; left; simp [isAnythingUnmarkedFrom]
  | cons cur rest ih =>
    intro i
    by_cases h : cur.marked = true
    · rcases ih (i + 1) with ⟨h1, h2⟩ | ⟨n, hn, h1, h2⟩
      · left
        refine ⟨by simp [isAnythingUnmarkedFrom, h, h1], ?_⟩
        intro n hn
        cases n with
        | zero => simpa [tableMarked] using h
        | succ m => simpa [tableMarked] using h2 m (by simpa using hn)
      · right
        refine ⟨n + 1, by simpa using hn, ?_, by simpa [tableMarked] using h2⟩
        simp only [isAnythingUnmarkedFrom, h, Bool.not_true, Bool.false_eq_true, if_false, h1]
        congr 1; omega
    · right
      have h' : cur.marked = false := by simpa using h
      exact ⟨0, by simp, by simp [isAnythingUnmarkedFrom, h'], by simpa [tableMarked] using h'⟩

theorem isAnythingUnmarked_spec (tbl : DFATableType) :
    (isAnythingUnmarked tbl = -1 ∧ ∀ n < tbl.length, tableMarked tbl n = true) ∨
    (∃ n : Nat, n < tbl.length ∧ isAnythingUnmarked tbl = (n : Int) ∧
      tableMarked tbl n = false) := by
  simpa [isAnythingUnmarked] using isAnythingUnmarkedFrom_spec tbl 0

/-- The three branches of the body of the `for` loop of `subsetConstruction`. -/
theorem subsetSymbol_cases (NFATable : NFATableType) (k : Nat) (w : Char) (tbl : DFATableType) :
    (∃ n : Nat, n < tbl.length ∧
        tableStates tbl n = eclosure (move (tableStates tbl k) w NFATable) NFATable ∧
        subsetSymbol NFATable k w tbl = tableSetMove tbl k w (n : Int)) ∨
    ((∀ n < tbl.length,
          tableStates tbl n ≠ eclosure (move (tableStates tbl k) w NFATable) NFATable) ∧
        eclosure (move (tableStates tbl k) w NFATable) NFATable ≠ [] ∧
        subsetSymbol NFATable k w tbl =
          tableSetMove
            (tbl ++ [newDFAState false (eclosure (move (tableStates tbl k) w NFATable) NFATable)])
            k w (tbl.length : Int)) ∨
    ((∀ n < tbl.length,
          tableStates tbl n ≠ eclosure (move (tableStates tbl k) w NFATable) NFATable) ∧
        eclosure (move (tableStates tbl k) w NFATable) NFATable = [] ∧
        subsetSymbol NFATable k w tbl = tableSetMove tbl k w (-1)) := by
  rcases isAMember_spec (eclosure (move (tableStates tbl k) w NFATable) NFATable) tbl with
    ⟨h1, h2⟩ | ⟨n, hn, h1, h2⟩
  · right
    by_cases he : eclosure (move (tableStates tbl k) w NFATable) NFATable = []
    · right
      refine ⟨h2, he, ?_⟩
      unfold subsetSymbol
      simp only [h1]
      simp [he]
    · left
      refine ⟨h2, he, ?_⟩
      unfold subsetSymbol
      simp only [h1]
      simp [he]
  · left
    refine ⟨n, hn, h2, ?_⟩
    unfold subsetSymbol
    simp only [h1]
    simp

/-! ### Invariants of the subset construction -/

theorem Extends.refl (tbl : DFATableType) : Extends tbl tbl :=
  ⟨le_refl _, fun _ _ => rfl⟩

theorem Extends.trans {t1 t2 t3 : DFATableType} (h1 : Extends t1 t2) (h2 : Extends t2 t3) :
    Extends t1 t3 :=
  ⟨le_trans h1.1 h2.1, fun i hi => by rw [h2.2 i (lt_of_lt_of_le hi h1.1), h1.2 i hi]⟩

theorem tableMoves_lt {tbl : DFATableType} {k : Nat} {a : Char} {j : Int}
    (h : tableMoves tbl k a = some j) : k < tbl.length := by
  unfold tableMoves at h
  cases hk : tbl[k]? with
  | none => simp [hk] at h
  | some s => exact (List.getElem?_eq_some_iff.mp hk).1

theorem MoveOK.lt {NFATable : NFATableType} {tbl : DFATableType} {k : Nat} {a : Char}
    (h : MoveOK NFATable tbl k a) : k < tbl.length := by
  rcases h with ⟨-, h⟩ | ⟨j, -, h, -⟩ <;> exact tableMoves_lt h

theorem MoveOK.extend {NFATable : NFATableType} {tbl1 tbl2 : DFATableType} {k : Nat} {a : Char}
    (h : MoveOK NFATable tbl1 k a) (he : Extends tbl1 tbl2)
    (hm : tableMoves tbl2 k a = tableMoves tbl1 k a) : MoveOK NFATable tbl2 k a := by
  have hk := h.lt
  rcases h with ⟨h1, h2⟩ | ⟨j, hj, h1, h2⟩
  · left
    rw [he.2 k hk, hm]
    exact ⟨h1, h2⟩
  · right
    refine ⟨j, lt_of_lt_of_le hj he.1, by rw [hm, h1], ?_⟩
    rw [he.2 k hk, he.2 j hj, h2]

theorem Core.of_states_eq {initialState : Int} {NFATable : NFATableType}
    {tbl1 tbl2 : DFATableType} (h : Core initialState NFATable tbl1)
    (hl : tbl2.length = tbl1.length) (hs : ∀ i, tableStates tbl2 i = tableStates tbl1 i) :
    Core initialState NFATable tbl2 where
  nonempty := by rw [hl]; exact h.nonempty
  zero := by rw [hs]; exact h.zero
  sorted := by intro i hi; rw [hs]; exact h.sorted i (hl ▸ hi)
  ne_nil := by intro i hi; rw [hs]; exact h.ne_nil i (hl ▸ hi)
  closed := by intro i hi; rw [hs]; exact h.closed i (hl ▸ hi)
  distinct := by
    intro i j hi hj; rw [hs, hs]; exact h.distinct i j (hl ▸ hi) (hl ▸ hj)
  univ := by intro i hi; rw [hs]; exact h.univ i (hl ▸ hi)

theorem epsReach_mem_dests {NFATable : NFATableType} {x y : Int}
    (h : EpsReach NFATable x y) : y = x ∨ y ∈ nfaDests NFATable := by
  induction h with
  | refl => exact Or.inl rfl
  | tail _ hstep _ => exact Or.inr (nfaAt_subset_nfaDests NFATable _ 'E' _ hstep)

theorem eclosure_move_univ (NFATable : NFATableType) (S : List Int) (a : Char) :
    ∀ x ∈ eclosure (move S a NFATable) NFATable, x ∈ nfaDests NFATable := by
  intro x hx
  obtain ⟨t, ht, hr⟩ := (mem_eclosure_iff _ _ _).mp hx
  obtain ⟨s, -, hs⟩ := (mem_move_iff _ _ _ _).mp ht
  rcases epsReach_mem_dests hr with rfl | h
  · exact nfaAt_subset_nfaDests NFATable s a _ hs
  · exact h

/-- Appending a new state with a fresh closure keeps the invariant. -/
theorem Core.append {initialState : Int} {NFATable : NFATableType} {tbl : DFATableType}
    (h : Core initialState NFATable tbl) (S : List Int) (a : Char)
    (hne : eclosure (move S a NFATable) NFATable ≠ [])
    (hnew : ∀ n < tbl.length, tableStates tbl n ≠ eclosure (move S a NFATable) NFATable) :
    Core initialState NFATable
      (tbl ++ [newDFAState false (eclosure (move S a NFATable) NFATable)]) := by
  have hlen : (tbl ++ [newDFAState false (eclosure (move S a NFATable) NFATable)]).length
      = tbl.length + 1 := by simp
  have hold : ∀ i < tbl.length,
      tableStates (tbl ++ [newDFAState false (eclosure (move S a NFATable) NFATable)]) i
        = tableStates tbl i := fun i hi => tableStates_append_left _ _ i hi
  have hnw : tableStates (tbl ++ [newDFAState false (eclosure (move S a NFATable) NFATable)])
      tbl.length = eclosure (move S a NFATable) NFATable := by
    rw [tableStates_append_new]; rfl
  have hsplit : ∀ i, i < tbl.length + 1 → i < tbl.length ∨ i = tbl.length := by
    intro i hi; omega
  constructor
  · rw [hlen]; omega
  · rw [hold 0 h.nonempty]; exact h.zero
  · intro i hi
    rw [hlen] at hi
    rcases hsplit i hi with h1 | rfl
    · rw [hold i h1]; exact h.sorted i h1
    · rw [hnw]; exact eclosure_sorted_lt _ _ (move_sorted_lt S a NFATable).nodup
  · intro i hi
    rw [hlen] at hi
    rcases hsplit i hi with h1 | rfl
    · rw [hold i h1]; exact h.ne_nil i h1
    · rw [hnw]; exact hne
  · intro i hi
    rw [hlen] at hi
    rcases hsplit i hi with h1 | rfl
    · rw [hold i h1]; exact h.closed i h1
    · rw [hnw]; exact eclosure_closed _ _
  · intro i j hi hj hij
    rw [hlen] at hi hj
    rcases hsplit i hi with h1 | rfl <;> rcases hsplit j hj with h2 | rfl
    · rw [hold i h1, hold j h2] at hij; exact h.distinct i j h1 h2 hij
    · rw [hold i h1, hnw] at hij; exact absurd hij (hnew i h1)
    · rw [hold j h2, hnw] at hij; exact absurd hij.symm (hnew j h2)
    · rfl
  · intro i hi
    rw [hlen] at hi
    rcases hsplit i hi with h1 | rfl
    · rw [hold i h1]; exact h.univ i h1
    · rw [hnw]
      intro x hx
      exact List.mem_cons_of_mem _ (eclosure_move_univ NFATable S a x hx)

theorem subsetSymbol_core {initialState : Int} {NFATable : NFATableType} {tbl : DFATableType}
    (k : Nat) (w : Char) (h : Core initialState NFATable tbl) :
    Core initialState NFATable (subsetSymbol NFATable k w tbl) := by
  rcases subsetSymbol_cases NFATable k w tbl with ⟨n, -, -, e⟩ | ⟨h1, h2, e⟩ | ⟨-, -, e⟩
  · rw [e]
    exact h.of_states_eq (tableSetMove_length _ _ _ _) (tableSetMove_states _ _ _ _)
  · rw [e]
    exact (h.append _ w h2 h1).of_states_eq (tableSetMove_length _ _ _ _)
      (tableSetMove_states _ _ _ _)
  · rw [e]
    exact h.of_states_eq (tableSetMove_length _ _ _ _) (tableSetMove_states _ _ _ _)

theorem subsetSymbol_extends (NFATable : NFATableType) (k : Nat) (w : Char) (tbl : DFATableType) :
    Extends tbl (subsetSymbol NFATable k w tbl) := by
  rcases subsetSymbol_cases NFATable k w tbl with ⟨n, -, -, e⟩ | ⟨-, -, e⟩ | ⟨-, -, e⟩
  · rw [e]
    exact ⟨by rw [tableSetMove_length], fun i _ => tableSetMove_states _ _ _ _ _⟩
  · rw [e]
    refine ⟨by rw [tableSetMove_length]; simp, fun i hi => ?_⟩
    rw [tableSetMove_states, tableStates_append_left _ _ i hi]
  · rw [e]
    exact ⟨by rw [tableSetMove_length], fun i _ => tableSetMove_states _ _ _ _ _⟩

theorem tableMarked_of_le (tbl : DFATableType) (i : Nat) (h : tbl.length ≤ i) :
    tableMarked tbl i = false := by
  simp [tableMarked, List.getElem?_eq_none h]

/-- The body of the `for` loop changes no `marked` flag, and a state that it
adds is unmarked. -/
theorem subsetSymbol_marked (NFATable : NFATableType) (k : Nat) (w : Char) (tbl : DFATableType)
    (i : Nat) : tableMarked (subsetSymbol NFATable k w tbl) i = tableMarked tbl i := by
  rcases subsetSymbol_cases NFATable k w tbl with ⟨n, -, -, e⟩ | ⟨-, -, e⟩ | ⟨-, -, e⟩
  · rw [e, tableSetMove_marked]
  · rw [e, tableSetMove_marked]
    rcases Nat.lt_trichotomy i tbl.length with h | h | h
    · exact tableMarked_append_left _ _ i h
    · subst h
      rw [tableMarked_append_new, tableMarked_of_le _ _ (le_refl _)]
      rfl
    · rw [tableMarked_of_le _ _ (by simp; omega), tableMarked_of_le _ _ (by omega)]
  · rw [e, tableSetMove_marked]

theorem subsetSymbol_moves_other (NFATable : NFATableType) (k : Nat) (w : Char)
    (tbl : DFATableType) (i : Nat) (c : Char) (hi : i < tbl.length)
    (hne : ¬ (i = k ∧ c = w)) :
    tableMoves (subsetSymbol NFATable k w tbl) i c = tableMoves tbl i c := by
  have hne2 : ∀ n : Nat, ¬ (i = k ∧ c = w ∧ k < n) := fun n hh => hne ⟨hh.1, hh.2.1⟩
  rcases subsetSymbol_cases NFATable k w tbl with ⟨n, -, -, e⟩ | ⟨-, -, e⟩ | ⟨-, -, e⟩
  · rw [e, tableSetMove_moves, if_neg (hne2 _)]
  · rw [e, tableSetMove_moves, if_neg (hne2 _), tableMoves_append_left _ _ i c hi]
  · rw [e, tableSetMove_moves, if_neg (hne2 _)]

/-- After the body of the `for` loop, the transition of `k` on `w` is right. -/
theorem subsetSymbol_moveOK_self (NFATable : NFATableType) (k : Nat) (w : Char)
    (tbl : DFATableType) (hk : k < tbl.length) :
    MoveOK NFATable (subsetSymbol NFATable k w tbl) k w := by
  have hst : tableStates (subsetSymbol NFATable k w tbl) k = tableStates tbl k :=
    (subsetSymbol_extends NFATable k w tbl).2 k hk
  unfold MoveOK
  rw [hst]
  rcases subsetSymbol_cases NFATable k w tbl with ⟨n, hn, h1, e⟩ | ⟨-, -, e⟩ | ⟨-, h2, e⟩
  · right
    refine ⟨n, by rw [e, tableSetMove_length]; exact hn, ?_, ?_⟩
    · rw [e, tableSetMove_moves, if_pos ⟨rfl, rfl, hk⟩]
    · rw [e, tableSetMove_states, h1]
  · right
    refine ⟨tbl.length, by rw [e, tableSetMove_length]; simp, ?_, ?_⟩
    · rw [e, tableSetMove_moves, if_pos ⟨rfl, rfl, by simp; omega⟩]
    · rw [e, tableSetMove_states, tableStates_append_new]; rfl
  · left
    refine ⟨h2, ?_⟩
    rw [e, tableSetMove_moves, if_pos ⟨rfl, rfl, hk⟩]

theorem subsetSymbol_moveOK (NFATable : NFATableType) (k : Nat) (w : Char)
    (tbl : DFATableType) (hk : k < tbl.length) (i : Nat) (c : Char)
    (h : MoveOK NFATable tbl i c ∨ (i = k ∧ c = w)) :
    MoveOK NFATable (subsetSymbol NFATable k w tbl) i c := by
  by_cases hic : i = k ∧ c = w
  · obtain ⟨rfl, rfl⟩ := hic
    exact subsetSymbol_moveOK_self NFATable i c tbl hk
  · rcases h with h | h
    · exact h.extend (subsetSymbol_extends NFATable k w tbl)
        (subsetSymbol_moves_other NFATable k w tbl i c h.lt hic)
    · exact absurd h hic

/-! ### The `for` loop over the symbols -/

theorem subsetSymbols_core {initialState : Int} {NFATable : NFATableType} (k : Nat)
    (ws : List Char) : ∀ {tbl : DFATableType}, Core initialState NFATable tbl →
      Core initialState NFATable (subsetSymbols NFATable k ws tbl) := by
  induction ws with
  | nil => intro tbl h; exact h
  | cons w rest ih => intro tbl h; exact ih (subsetSymbol_core k w h)

theorem subsetSymbols_extends (NFATable : NFATableType) (k : Nat) (ws : List Char) :
    ∀ (tbl : DFATableType), Extends tbl (subsetSymbols NFATable k ws tbl) := by
  induction ws with
  | nil => intro tbl; exact Extends.refl tbl
  | cons w rest ih =>
    intro tbl
    exact (subsetSymbol_extends NFATable k w tbl).trans (ih _)

theorem subsetSymbols_marked (NFATable : NFATableType) (k : Nat) (ws : List Char) :
    ∀ (tbl : DFATableType) (i : Nat),
      tableMarked (subsetSymbols NFATable k ws tbl) i = tableMarked tbl i := by
  induction ws with
  | nil => intro tbl i; rfl
  | cons w rest ih =>
    intro tbl i
    simp only [subsetSymbols]
    rw [ih, subsetSymbol_marked]

theorem subsetSymbols_moveOK (NFATable : NFATableType) (k : Nat) (ws : List Char) :
    ∀ (tbl : DFATableType), k < tbl.length → ∀ (i : Nat) (c : Char),
      (MoveOK NFATable tbl i c ∨ (i = k ∧ c ∈ ws)) →
      MoveOK NFATable (subsetSymbols NFATable k ws tbl) i c := by
  induction ws with
  | nil =>
    intro tbl _ i c h
    rcases h with h | ⟨-, h⟩
    · exact h
    · exact absurd h (List.not_mem_nil _)
  | cons w rest ih =>
    intro tbl hk i c h
    simp only [subsetSymbols]
    apply ih _ (lt_of_lt_of_le hk (subsetSymbol_extends NFATable k w tbl).1)
    rcases h with h | ⟨h1, h2⟩
    · exact Or.inl (subsetSymbol_moveOK NFATable k w tbl hk i c (Or.inl h))
    · rcases List.mem_cons.mp h2 with h3 | h3
      · exact Or.inl (subsetSymbol_moveOK NFATable k w tbl hk i c (Or.inr ⟨h1, h3⟩))
      · exact Or.inr ⟨h1, h3⟩

theorem tableMark_core {initialState : Int} {NFATable : NFATableType} {tbl : DFATableType}
    (k : Nat) (h : Core initialState NFATable tbl) :
    Core initialState NFATable (tableMark tbl k) :=
  h.of_states_eq (tableMark_length _ _) (tableMark_states _ _)

theorem tableMark_extends (tbl : DFATableType) (k : Nat) : Extends tbl (tableMark tbl k) :=
  ⟨by rw [tableMark_length], fun i _ => tableMark_states _ _ _⟩

theorem subsetIteration_extends (NFATable : NFATableType) (ALPHABET : List Char)
    (tbl : DFATableType) : Extends tbl (subsetIteration NFATable ALPHABET tbl) :=
  (tableMark_extends tbl _).trans (subsetSymbols_extends NFATable _ _ _)

theorem subsetIteration_core {initialState : Int} {NFATable : NFATableType}
    (ALPHABET : List Char) {tbl : DFATableType} (h : Core initialState NFATable tbl) :
    Core initialState NFATable (subsetIteration NFATable ALPHABET tbl) :=
  subsetSymbols_core _ _ (tableMark_core _ h)

/-- When a state is unmarked, `isAnythingUnmarked` returns an index of the
table whose state is unmarked. -/
theorem isAnythingUnmarked_nonneg {tbl : DFATableType} (h : 0 ≤ isAnythingUnmarked tbl) :
    (isAnythingUnmarked tbl).toNat < tbl.length ∧
      tableMarked tbl (isAnythingUnmarked tbl).toNat = false := by
  rcases isAnythingUnmarked_spec tbl with ⟨h1, -⟩ | ⟨n, hn, h1, h2⟩
  · rw [h1] at h; exact absurd h (by decide)
  · rw [h1]; simpa using ⟨hn, h2⟩

theorem isAnythingUnmarked_neg {tbl : DFATableType} (h : ¬ 0 ≤ isAnythingUnmarked tbl) :
    isAnythingUnmarked tbl = -1 ∧ ∀ n < tbl.length, tableMarked tbl n = true := by
  rcases isAnythingUnmarked_spec tbl with h1 | ⟨n, hn, h1, h2⟩
  · exact h1
  · rw [h1] at h; exact absurd (Int.ofNat_nonneg n) h

/-- The flags after one iteration of the `while` loop: the selected state is
marked, nothing else changes. -/
theorem subsetIteration_marked (NFATable : NFATableType) (ALPHABET : List Char)
    (tbl : DFATableType) (i : Nat) :
    tableMarked (subsetIteration NFATable ALPHABET tbl) i =
      if i = (isAnythingUnmarked tbl).toNat ∧ (isAnythingUnmarked tbl).toNat < tbl.length
      then true else tableMarked tbl i := by
  unfold subsetIteration
  simp only []
  rw [subsetSymbols_marked, tableMark_marked]

theorem subsetIteration_inv {initialState : Int} {NFATable : NFATableType}
    (ALPHABET : List Char) {tbl : DFATableType}
    (h : Inv initialState NFATable (iteratedSymbols ALPHABET) tbl)
    (hu : 0 ≤ isAnythingUnmarked tbl) :
    Inv initialState NFATable (iteratedSymbols ALPHABET)
      (subsetIteration NFATable ALPHABET tbl) := by
  obtain ⟨hk, -⟩ := isAnythingUnmarked_nonneg hu
  refine ⟨subsetIteration_core ALPHABET h.1, ?_⟩
  intro i _ hm c hc
  rw [subsetIteration_marked] at hm
  unfold subsetIteration
  simp only []
  apply subsetSymbols_moveOK NFATable _ _ _ (by rw [tableMark_length]; exact hk)
  by_cases hik : i = (isAnythingUnmarked tbl).toNat
  · exact Or.inr ⟨hik, hc⟩
  · left
    have hm2 : tableMarked tbl i = true := by
      rw [if_neg (fun hh => hik hh.1)] at hm; exact hm
    have hi2 : i < tbl.length := by
      by_contra hcon
      rw [tableMarked_of_le _ _ (by omega)] at hm2
      exact absurd hm2 (by decide)
    exact (h.2 i hi2 hm2 c hc).extend (tableMark_extends _ _) (tableMark_moves _ _ _ _)

/-- Induction principle for the `while` loop of `subsetConstruction`. -/
theorem subsetLoop_induct (NFATable : NFATableType) (ALPHABET : List Char)
    (P : DFATableType → Prop)
    (hstep : ∀ tbl, P tbl → 0 ≤ isAnythingUnmarked tbl →
      P (subsetIteration NFATable ALPHABET tbl)) :
    ∀ (fuel : Nat) (tbl : DFATableType), P tbl → P (subsetLoop NFATable ALPHABET fuel tbl) := by
  intro fuel
  induction fuel with
  | zero => intro tbl h; exact h
  | succ n ih =>
    intro tbl h
    by_cases hu : 0 ≤ isAnythingUnmarked tbl
    · simp only [subsetLoop, ge_iff_le, hu, if_true]
      exact ih _ (hstep tbl h hu)
    · simp only [subsetLoop, ge_iff_le, hu, if_false]
      exact h

theorem epsReach_self_univ {NFATable : NFATableType} (initialState : Int) :
    ∀ x ∈ eclosure [initialState] NFATable, x ∈ initialState :: nfaDests NFATable := by
  intro x hx
  obtain ⟨t, ht, hr⟩ := (mem_eclosure_iff _ _ _).mp hx
  rw [List.mem_singleton] at ht
  subst ht
  rcases epsReach_mem_dests hr with rfl | h
  · exact List.mem_cons_self _ _
  · exact List.mem_cons_of_mem _ h

theorem initialTable_core (initialState : Int) (NFATable : NFATableType) :
    Core initialState NFATable (initialTable initialState NFATable) := by
  have hs : ∀ i, i < (initialTable initialState NFATable).length →
      tableStates (initialTable initialState NFATable) i = eclosure [initialState] NFATable := by
    intro i hi
    have : i = 0 := by simp [initialTable] at hi; omega
    subst this
    rfl
  constructor
  · simp [initialTable]
  · rfl
  · intro i hi; rw [hs i hi]
    exact eclosure_sorted_lt _ _ (List.nodup_singleton _)
  · intro i hi; rw [hs i hi]
    intro hnil
    have := subset_eclosure [initialState] NFATable initialState (List.mem_singleton_self _)
    rw [hnil] at this
    exact absurd this (List.not_mem_nil _)
  · intro i hi; rw [hs i hi]; exact eclosure_closed _ _
  · intro i j hi hj _
    simp [initialTable] at hi hj
    omega
  · intro i hi; rw [hs i hi]; exact epsReach_self_univ initialState

theorem initialTable_inv (initialState : Int) (NFATable : NFATableType) (syms : List Char) :
    Inv initialState NFATable syms (initialTable initialState NFATable) := by
  refine ⟨initialTable_core initialState NFATable, ?_⟩
  intro i hi hm
  have : i = 0 := by simp [initialTable] at hi; omega
  subst this
  simp [initialTable, tableMarked, newDFAState] at hm

/-! ### The size of the table and the termination of the loop -/

/-- A table that satisfies the invariant has at most `2 ^ n` states, `n` the
number of state occurrences counted by `subsetFuel`. -/
theorem Core.length_le {initialState : Int} {NFATable : NFATableType} {tbl : DFATableType}
    (h : Core initialState NFATable tbl) : tbl.length ≤ subsetFuel initialState NFATable := by
  have hinj : Set.InjOn (fun i : Nat => (tableStates tbl i).toFinset)
      (Finset.range tbl.length : Finset Nat) := by
    intro i hi j hj hij
    simp only [Finset.coe_range, Set.mem_Iio] at hi hj
    simp only at hij
    apply h.distinct i j hi hj
    apply List.eq_of_perm_of_sorted (r := (· ≤ ·)) _ (h.sorted i hi).le_of_lt
      (h.sorted j hj).le_of_lt
    exact (List.perm_ext_iff_of_nodup (h.sorted i hi).nodup (h.sorted j hj).nodup).mpr
      (fun x => by
        have := congrArg (fun s => x ∈ s) hij
        simpa using this)
  have hmem : ∀ i ∈ Finset.range tbl.length,
      (fun i : Nat => (tableStates tbl i).toFinset) i ∈
        (initialState :: nfaDests NFATable).toFinset.powerset := by
    intro i hi
    rw [Finset.mem_range] at hi
    rw [Finset.mem_powerset]
    intro x hx
    rw [List.mem_toFinset] at hx ⊢
    exact h.univ i hi x hx
  have hcard := Finset.card_le_card_of_injOn _ hmem hinj
  rw [Finset.card_range, Finset.card_powerset] at hcard
  have h2 := List.toFinset_card_le (initialState :: nfaDests NFATable)
  calc tbl.length ≤ 2 ^ (initialState :: nfaDests NFATable).toFinset.card := hcard
    _ ≤ 2 ^ (initialState :: nfaDests NFATable).length :=
      Nat.pow_le_pow_right (by decide) h2

theorem markedCount_lt_of_unmarked {tbl : DFATableType} {n : Nat} (hn : n < tbl.length)
    (hu : tableMarked tbl n = false) : markedCount tbl < tbl.length := by
  unfold markedCount
  have : (Finset.range tbl.length).filter (fun i => tableMarked tbl i = true)
      ⊂ Finset.range tbl.length := by
    rw [Finset.ssubset_iff_of_subset (Finset.filter_subset _ _)]
    exact ⟨n, Finset.mem_range.mpr hn, by simp [hu]⟩
  simpa using Finset.card_lt_card this

/-- Every iteration of the `while` loop marks one more state. -/
theorem markedCount_subsetIteration (NFATable : NFATableType) (ALPHABET : List Char)
    {tbl : DFATableType} (hu : 0 ≤ isAnythingUnmarked tbl) :
    markedCount tbl + 1 ≤ markedCount (subsetIteration NFATable ALPHABET tbl) := by
  obtain ⟨hk, hkm⟩ := isAnythingUnmarked_nonneg hu
  have hle := (subsetIteration_extends NFATable ALPHABET tbl).1
  unfold markedCount
  have hsub : insert (isAnythingUnmarked tbl).toNat
      ((Finset.range tbl.length).filter (fun i => tableMarked tbl i = true)) ⊆
      (Finset.range (subsetIteration NFATable ALPHABET tbl).length).filter
        (fun i => tableMarked (subsetIteration NFATable ALPHABET tbl) i = true) := by
    intro i hi
    rw [Finset.mem_insert, Finset.mem_filter, Finset.mem_range] at hi
    rw [Finset.mem_filter, Finset.mem_range, subsetIteration_marked]
    rcases hi with rfl | ⟨h1, h2⟩
    · exact ⟨by omega, by simp [hk]⟩
    · refine ⟨by omega, ?_⟩
      split
      · rfl
      · exact h2
  have hnot : (isAnythingUnmarked tbl).toNat ∉
      (Finset.range tbl.length).filter (fun i => tableMarked tbl i = true) := by
    simp [hkm]
  have := Finset.card_le_card hsub
  rw [Finset.card_insert_of_not_mem hnot] at this
  exact this

/-- With enough iterations available the `while` loop stops because no state
is unmarked. -/
theorem subsetLoop_terminates {initialState : Int} {NFATable : NFATableType}
    (ALPHABET : List Char) : ∀ (fuel : Nat) (tbl : DFATableType),
      Core initialState NFATable tbl →
      subsetFuel initialState NFATable ≤ fuel + markedCount tbl →
      isAnythingUnmarked (subsetLoop NFATable ALPHABET fuel tbl) = -1 := by
  intro fuel
  induction fuel with
  | zero =>
    intro tbl hc hf
    simp only [subsetLoop]
    rcases isAnythingUnmarked_spec tbl with h1 | ⟨n, hn, -, h2⟩
    · exact h1.1
    · have := markedCount_lt_of_unmarked hn h2
      have := hc.length_le
      omega
  | succ n ih =>
    intro tbl hc hf
    by_cases hu : 0 ≤ isAnythingUnmarked tbl
    · simp only [subsetLoop, ge_iff_le, hu, if_true]
      apply ih _ (subsetIteration_core ALPHABET hc)
      have := markedCount_subsetIteration NFATable ALPHABET hu
      omega
    · simp only [subsetLoop, ge_iff_le, hu, if_false]
      exact (isAnythingUnmarked_neg hu).1

/-- The iteration bound used by `subsetConstruction` is never exhausted: the
loop ends because every state is marked. -/
theorem subsetLoop_fuel_enough (initialState : Int) (finalStates : List Int)
    (NFATable : NFATableType) (ALPHABET : List Char) :
    isAnythingUnmarked (subsetConstruction initialState finalStates NFATable ALPHABET) = -1 :=
  subsetLoop_terminates ALPHABET _ _ (initialTable_core initialState NFATable)
    (Nat.le_add_right _ _)

theorem subsetConstruction_inv (initialState : Int) (finalStates : List Int)
    (NFATable : NFATableType) (ALPHABET : List Char) :
    Inv initialState NFATable (iteratedSymbols ALPHABET)
      (subsetConstruction initialState finalStates NFATable ALPHABET) :=
  subsetLoop_induct NFATable ALPHABET _ (fun _ h hu => subsetIteration_inv ALPHABET h hu) _ _
    (initialTable_inv initialState NFATable _)

theorem subsetConstruction_all_marked (initialState : Int) (finalStates : List Int)
    (NFATable : NFATableType) (ALPHABET : List Char) :
    ∀ n < (subsetConstruction initialState finalStates NFATable ALPHABET).length,
      tableMarked (subsetConstruction initialState finalStates NFATable ALPHABET) n = true := by
  have h := subsetLoop_fuel_enough initialState finalStates NFATable ALPHABET
  rcases isAnythingUnmarked_spec
      (subsetConstruction initialState finalStates NFATable ALPHABET) with h1 | ⟨n, -, h1, -⟩
  · exact h1.2
  · rw [h1] at h
    exact absurd h (by omega)

/-! ### The languages of the NFA and of the DFA -/

theorem NfaRun.of_epsReach {NFATable : NFATableType} {s t u : Int} {w : List Char}
    (h : EpsReach NFATable s t) (hr : NfaRun NFATable t w u) : NfaRun NFATable s w u := by
  induction h using Relation.ReflTransGen.head_induction_on with
  | refl => exact hr
  | head hstep _ ih => exact NfaRun.eps hstep ih

theorem NfaRun.nil_epsReach {NFATable : NFATableType} {s u : Int} {w : List Char}
    (h : NfaRun NFATable s w u) (hw : w = []) : EpsReach NFATable s u := by
  induction h with
  | done s => exact Relation.ReflTransGen.refl
  | eps hstep _ ih => exact Relation.ReflTransGen.head hstep (ih hw)
  | sym _ _ _ _ => exact absurd hw (List.cons_ne_nil _ _)

theorem NfaRun.cons_split {NFATable : NFATableType} {s u : Int} {v : List Char}
    (h : NfaRun NFATable s v u) : ∀ (a : Char) (w : List Char), v = a :: w →
      ∃ s1 s2, EpsReach NFATable s s1 ∧ s2 ∈ nfaAt NFATable s1 a ∧ NfaRun NFATable s2 w u := by
  induction h with
  | done s => intro a w hv; exact absurd hv.symm (List.cons_ne_nil _ _)
  | eps hstep _ ih =>
    intro a w hv
    obtain ⟨s1, s2, h1, h2, h3⟩ := ih a w hv
    exact ⟨s1, s2, Relation.ReflTransGen.head hstep h1, h2, h3⟩
  | sym _ hstep hrun _ =>
    intro a w hv
    obtain ⟨rfl, rfl⟩ := List.cons.inj hv
    exact ⟨_, _, Relation.ReflTransGen.refl, hstep, hrun⟩

theorem closed_of_epsReach {NFATable : NFATableType} {S : List Int}
    (hcl : ∀ s ∈ S, ∀ u ∈ nfaAt NFATable s 'E', u ∈ S) {s t : Int} (hs : s ∈ S)
    (h : EpsReach NFATable s t) : t ∈ S := by
  induction h with
  | refl => exact hs
  | tail _ hstep ih => exact hcl _ ih _ hstep

theorem dfaStep_of_index {tbl : DFATableType} {q : Nat} {a : Char} {j : Nat}
    (h : tableMoves tbl q a = some (j : Int)) : dfaStep tbl q a = some j := by
  unfold dfaStep
  rw [h]
  have : ¬ ((j : Int) = -1) := by omega
  simp [this]

theorem dfaStep_of_reject {tbl : DFATableType} {q : Nat} {a : Char}
    (h : tableMoves tbl q a = some (-1)) : dfaStep tbl q a = none := by
  unfold dfaStep
  rw [h]
  simp

/-- In a table whose transitions are all recorded correctly, the DFA run from
state `q` ends in a state that contains an accepting NFA state exactly when
the NFA has an accepting run from a member of the constituent set of `q`. -/
theorem dfaRun_correct {initialState : Int} {NFATable : NFATableType} {syms : List Char}
    {tbl : DFATableType} (hc : Core initialState NFATable tbl)
    (hm : ∀ i < tbl.length, ∀ c ∈ syms, MoveOK NFATable tbl i c)
    (finalStates : List Int) :
    ∀ (w : List Char), (∀ a ∈ w, a ∈ syms ∧ a ≠ 'E') → ∀ q < tbl.length,
      ((∃ r, dfaRun tbl q w = some r ∧ r < tbl.length ∧
          ∃ f ∈ finalStates, f ∈ tableStates tbl r) ↔
        ∃ s ∈ tableStates tbl q, ∃ f ∈ finalStates, NfaRun NFATable s w f) := by
  intro w
  induction w with
  | nil =>
    intro _ q hq
    simp only [dfaRun, Option.some.injEq]
    constructor
    · rintro ⟨r, rfl, -, f, hf, hfs⟩
      exact ⟨f, hfs, f, hf, NfaRun.done f⟩
    · rintro ⟨s, hs, f, hf, hrun⟩
      exact ⟨q, rfl, hq, f, hf, closed_of_epsReach (hc.closed q hq) hs (hrun.nil_epsReach rfl)⟩
  | cons a w ih =>
    intro hw q hq
    have ha := hw a (List.mem_cons_self _ _)
    have hw2 : ∀ b ∈ w, b ∈ syms ∧ b ≠ 'E' := fun b hb => hw b (List.mem_cons_of_mem _ hb)
    rcases hm q hq a ha.1 with ⟨h1, h2⟩ | ⟨j, hj, h1, h2⟩
    · simp only [dfaRun, dfaStep_of_reject h2]
      constructor
      · rintro ⟨r, hr, -⟩
        exact absurd hr (by simp)
      · rintro ⟨s, hs, f, -, hrun⟩
        obtain ⟨s1, s2, e1, e2, -⟩ := hrun.cons_split a w rfl
        have hs1 := closed_of_epsReach (hc.closed q hq) hs e1
        have hs2 : s2 ∈ move (tableStates tbl q) a NFATable :=
          (mem_move_iff _ _ _ _).mpr ⟨s1, hs1, e2⟩
        have := subset_eclosure _ NFATable s2 hs2
        rw [h1] at this
        exact absurd this (List.not_mem_nil _)
    · simp only [dfaRun, dfaStep_of_index h1]
      rw [ih hw2 j hj, h2]
      constructor
      · rintro ⟨s, hs, f, hf, hrun⟩
        obtain ⟨t, ht, hr⟩ := (mem_eclosure_iff _ _ _).mp hs
        obtain ⟨s0, hs0, hst⟩ := (mem_move_iff _ _ _ _).mp ht
        exact ⟨s0, hs0, f, hf, NfaRun.sym ha.2 hst (NfaRun.of_epsReach hr hrun)⟩
      · rintro ⟨s, hs, f, hf, hrun⟩
        obtain ⟨s1, s2, e1, e2, e3⟩ := hrun.cons_split a w rfl
        have hs1 := closed_of_epsReach (hc.closed q hq) hs e1
        have hs2 : s2 ∈ move (tableStates tbl q) a NFATable :=
          (mem_move_iff _ _ _ _).mpr ⟨s1, hs1, e2⟩
        exact ⟨s2, subset_eclosure _ NFATable s2 hs2, f, hf, e3⟩

theorem dfaAccepts_iff (tbl : DFATableType) (finalStates : List Int) (w : List Char) :
    dfaAccepts tbl finalStates w = true ↔
      ∃ r, dfaRun tbl 0 w = some r ∧ r < tbl.length ∧
        ∃ f ∈ finalStates, f ∈ tableStates tbl r := by
  unfold dfaAccepts
  cases h : dfaRun tbl 0 w with
  | none => simp
  | some q =>
    simp only [decide_eq_true_eq, mem_findFinalDFAStates, Option.some.injEq]
    constructor
    · rintro ⟨n, hn, e, hk⟩
      have : q = n := by exact_mod_cast e
      subst this
      exact ⟨q, rfl, hn, hk⟩
    · rintro ⟨r, rfl, hr, hk⟩
      exact ⟨q, hr, rfl, hk⟩

theorem iteratedSymbols_concat (syms : List Char) (c : Char) :
    iteratedSymbols (syms ++ [c]) = syms := by
  simp [iteratedSymbols]

theorem subsetConstruction_moveOK (initialState : Int) (finalStates : List Int)
    (NFATable : NFATableType) (ALPHABET : List Char) :
    ∀ i < (subsetConstruction initialState finalStates NFATable ALPHABET).length,
      ∀ c ∈ iteratedSymbols ALPHABET,
        MoveOK NFATable (subsetConstruction initialState finalStates NFATable ALPHABET) i c :=
  fun i hi c hc =>
    (subsetConstruction_inv initialState finalStates NFATable ALPHABET).2 i hi
      (subsetConstruction_all_marked initialState finalStates NFATable ALPHABET i hi) c hc

/-- C1: for every NFA table, start state, accepting states and declared input
symbols `syms`, with `ALPHABET = syms ++ ['E']`, and for every word over the
symbols of `syms` other than `'E'`: the DFA built by `subsetConstruction`
(start state `0`, transitions given by the `moves` maps with `-1` meaning
reject, accepting states `findFinalDFAStates`) accepts the word if and only if
the NFA with epsilon transitions accepts it. -/
theorem subsetConstruction_language_equivalent (initialState : Int) (finalStates : List Int)
    (NFATable : NFATableType) (syms : List Char) (w : List Char)
    (hw : ∀ a ∈ w, a ∈ syms ∧ a ≠ 'E') :
    dfaAccepts (subsetConstruction initialState finalStates NFATable (syms ++ ['E']))
        finalStates w = true ↔
      nfaAccepts NFATable initialState finalStates w := by
  have hinv := subsetConstruction_inv initialState finalStates NFATable (syms ++ ['E'])
  have hmv := subsetConstruction_moveOK initialState finalStates NFATable (syms ++ ['E'])
  rw [iteratedSymbols_concat] at hmv
  rw [dfaAccepts_iff, dfaRun_correct hinv.1 hmv finalStates w hw 0 hinv.1.nonempty,
    hinv.1.zero]
  unfold nfaAccepts
  constructor
  · rintro ⟨s, hs, f, hf, hrun⟩
    obtain ⟨t, ht, hr⟩ := (mem_eclosure_iff _ _ _).mp hs
    rw [List.mem_singleton] at ht
    subst ht
    exact ⟨f, hf, NfaRun.of_epsReach hr hrun⟩
  · rintro ⟨f, hf, hrun⟩
    exact ⟨initialState, subset_eclosure _ _ _ (List.mem_singleton_self _), f, hf, hrun⟩

theorem subsetLoop_core (initialState : Int) (NFATable : NFATableType) (ALPHABET : List Char)
    (n : Nat) :
    Core initialState NFATable (tableAfter initialState NFATable ALPHABET n) :=
  subsetLoop_induct NFATable ALPHABET _ (fun _ h _ => subsetIteration_core ALPHABET h) _ _
    (initialTable_core initialState NFATable)

theorem subsetConstruction_core (initialState : Int) (finalStates : List Int)
    (NFATable : NFATableType) (ALPHABET : List Char) :
    Core initialState NFATable (subsetConstruction initialState finalStates NFATable ALPHABET) :=
  subsetLoop_core initialState NFATable ALPHABET _

/-- C2: `eclosure(T, table)` holds exactly the states reachable from a member
of `T` by zero or more `'E'` transitions; it contains `T`, is closed under
`'E'` transitions, and is contained in every set with these two properties. -/
theorem eclosure_least_closed (T : List Int) (NFATable : NFATableType) :
    (∀ s, s ∈ eclosure T NFATable ↔ ∃ t ∈ T, EpsReach NFATable t s) ∧
    (∀ t ∈ T, t ∈ eclosure T NFATable) ∧
    (∀ s ∈ eclosure T NFATable, ∀ u ∈ nfaAt NFATable s 'E', u ∈ eclosure T NFATable) ∧
    (∀ S : Set Int, (∀ t ∈ T, t ∈ S) → (∀ s ∈ S, ∀ u ∈ nfaAt NFATable s 'E', u ∈ S) →
      ∀ s ∈ eclosure T NFATable, s ∈ S) := by
  refine ⟨mem_eclosure_iff T NFATable, subset_eclosure T NFATable,
    eclosure_closed T NFATable, ?_⟩
  intro S hT hcl s hs
  obtain ⟨t, ht, hr⟩ := (mem_eclosure_iff T NFATable s).mp hs
  induction hr with
  | refl => exact hT t ht
  | tail hr2 hstep ih =>
    exact hcl _ (ih ((mem_eclosure_iff T NFATable _).mpr ⟨t, ht, hr2⟩)) _ hstep

/-- C3: `move(T, a, table)` is strictly increasing (sorted and free of
duplicates) and its members are exactly the states in the `a`-destination list
of some member of `T`. -/
theorem move_sorted_exact (T : List Int) (a : Char) (NFATable : NFATableType) :
    (move T a NFATable).Sorted (· < ·) ∧ (move T a NFATable).Nodup ∧
    ∀ s, s ∈ move T a NFATable ↔ ∃ t ∈ T, s ∈ nfaAt NFATable t a :=
  ⟨move_sorted_lt T a NFATable, (move_sorted_lt T a NFATable).nodup,
    mem_move_iff T a NFATable⟩

/-- C4: in the final table, for every DFA state `k` and every iterated symbol
`a`, the entry `moves[a]` of `k` exists; it is `-1` exactly when
`move(k.states, a)` is empty, and otherwise it is the index of the DFA state
whose constituent vector is `eclosure(move(k.states, a))`. -/
theorem subsetConstruction_moves_correct (initialState : Int) (finalStates : List Int)
    (NFATable : NFATableType) (ALPHABET : List Char) (k : Nat) (a : Char)
    (hk : k < (subsetConstruction initialState finalStates NFATable ALPHABET).length)
    (ha : a ∈ iteratedSymbols ALPHABET) :
    ∃ j : Int,
      tableMoves (subsetConstruction initialState finalStates NFATable ALPHABET) k a = some j ∧
      (j = -1 ↔
        move (tableStates (subsetConstruction initialState finalStates NFATable ALPHABET) k)
          a NFATable = []) ∧
      (j ≠ -1 → ∃ n : Nat, j = (n : Int) ∧
        n < (subsetConstruction initialState finalStates NFATable ALPHABET).length ∧
        tableStates (subsetConstruction initialState finalStates NFATable ALPHABET) n =
          eclosure
            (move (tableStates (subsetConstruction initialState finalStates NFATable ALPHABET) k)
              a NFATable) NFATable) := by
  have hcore := subsetConstruction_core initialState finalStates NFATable ALPHABET
  rcases subsetConstruction_moveOK initialState finalStates NFATable ALPHABET k hk a ha with
    ⟨h1, h2⟩ | ⟨n, hn, h1, h2⟩
  · refine ⟨-1, h2, ?_, fun h => absurd rfl h⟩
    rw [← eclosure_eq_nil_iff _ NFATable]
    exact ⟨fun _ => h1, fun _ => rfl⟩
  · refine ⟨(n : Int), h1, ?_, fun _ => ⟨n, rfl, hn, h2⟩⟩
    constructor
    · intro h; omega
    · intro h
      have := hcore.ne_nil n hn
      rw [h2, h, eclosure_nil] at this
      exact absurd rfl this

/-- Witness for C4 on the scenario NFA: state `0` and the symbol `a`. -/
theorem subsetConstruction_moves_correct_witness :
    ∃ j : Int,
      tableMoves (subsetConstruction 1 [3] scenarioNFA ['a', 'b', 'E']) 0 'a' = some j ∧
      (j = -1 ↔
        move (tableStates (subsetConstruction 1 [3] scenarioNFA ['a', 'b', 'E']) 0)
          'a' scenarioNFA = []) ∧
      (j ≠ -1 → ∃ n : Nat, j = (n : Int) ∧
        n < (subsetConstruction 1 [3] scenarioNFA ['a', 'b', 'E']).length ∧
        tableStates (subsetConstruction 1 [3] scenarioNFA ['a', 'b', 'E']) n =
          eclosure
            (move (tableStates (subsetConstruction 1 [3] scenarioNFA ['a', 'b', 'E']) 0)
              'a' scenarioNFA) scenarioNFA) :=
  subsetConstruction_moves_correct 1 [3] scenarioNFA ['a', 'b', 'E'] 0 'a'
    (by decide) (by decide)

/-- C5: DFA state `0` has the constituent vector `eclosure({start})` after any
number of iterations of the `while` loop, after any number of symbols
processed inside the next iteration, and in the final table.  (The loop over
the alphabet is defined for a non-empty `ALPHABET` only.) -/
theorem state_zero_is_start_closure (initialState : Int) (finalStates : List Int)
    (NFATable : NFATableType) (ALPHABET : List Char) (_hA : ALPHABET ≠ []) :
    (∀ n : Nat,
      tableStates (tableAfter initialState NFATable ALPHABET n) 0
        = eclosure [initialState] NFATable) ∧
    (∀ (n k : Nat) (ws : List Char),
      tableStates
        (subsetSymbols NFATable k ws
          (tableMark (tableAfter initialState NFATable ALPHABET n) k)) 0
        = eclosure [initialState] NFATable) ∧
    tableStates (subsetConstruction initialState finalStates NFATable ALPHABET) 0
      = eclosure [initialState] NFATable := by
  refine ⟨fun n => (subsetLoop_core initialState NFATable ALPHABET n).zero, ?_,
    (subsetConstruction_core initialState finalStates NFATable ALPHABET).zero⟩
  intro n k ws
  exact (subsetSymbols_core k ws
    (tableMark_core k (subsetLoop_core initialState NFATable ALPHABET n))).zero

/-- Witness for C5 on the scenario NFA. -/
theorem state_zero_is_start_closure_witness :
    ['a', 'b', 'E'] ≠ [] ∧
    tableStates (subsetConstruction 1 [3] scenarioNFA ['a', 'b', 'E']) 0
      = eclosure [1] scenarioNFA :=
  ⟨by decide, (state_zero_is_start_closure 1 [3] scenarioNFA ['a', 'b', 'E'] (by decide)).2.2⟩

/-- C6: after any number of iterations of the `while` loop, and in the final
table, two distinct indices never have the same constituent vector.  (The loop
over the alphabet is defined for a non-empty `ALPHABET` only.) -/
theorem constituent_sets_distinct (initialState : Int) (finalStates : List Int)
    (NFATable : NFATableType) (ALPHABET : List Char) (_hA : ALPHABET ≠ []) :
    (∀ (n i j : Nat),
      i < (tableAfter initialState NFATable ALPHABET n).length →
      j < (tableAfter initialState NFATable ALPHABET n).length →
      i ≠ j →
      tableStates (tableAfter initialState NFATable ALPHABET n) i ≠
        tableStates (tableAfter initialState NFATable ALPHABET n) j) ∧
    (∀ (i j : Nat),
      i < (subsetConstruction initialState finalStates NFATable ALPHABET).length →
      j < (subsetConstruction initialState finalStates NFATable ALPHABET).length →
      i ≠ j →
      tableStates (subsetConstruction initialState finalStates NFATable ALPHABET) i ≠
        tableStates (subsetConstruction initialState finalStates NFATable ALPHABET) j) := by
  constructor
  · intro n i j hi hj hij heq
    exact hij ((subsetLoop_core initialState NFATable ALPHABET n).distinct i j hi hj heq)
  · intro i j hi hj hij heq
    exact hij ((subsetConstruction_core initialState finalStates NFATable ALPHABET).distinct
      i j hi hj heq)

/-- Witness for C6 on the scenario NFA: the states `0` and `1` of the final
table differ. -/
theorem constituent_sets_distinct_witness :
    ['a', 'b', 'E'] ≠ [] ∧
    tableStates (subsetConstruction 1 [3] scenarioNFA ['a', 'b', 'E']) 0 ≠
      tableStates (subsetConstruction 1 [3] scenarioNFA ['a', 'b', 'E']) 1 :=
  ⟨by decide,
    (constituent_sets_distinct 1 [3] scenarioNFA ['a', 'b', 'E'] (by decide)).2 0 1
      (by decide) (by decide) (by decide)⟩

/-- C7: an index occurs in `findFinalDFAStates(table, finalStates)` exactly
when it is an index of the table whose constituent vector shares an element
with `finalStates`; with no accepting NFA state the result is empty. -/
theorem findFinalDFAStates_exact (DFATable : DFATableType) (finalStates : List Int) :
    (∀ i : Int, i ∈ findFinalDFAStates DFATable finalStates ↔
      ∃ n : Nat, i = (n : Int) ∧ n < DFATable.length ∧
        ∃ x, x ∈ tableStates DFATable n ∧ x ∈ finalStates) ∧
    findFinalDFAStates DFATable [] = [] := by
  constructor
  · intro i
    rw [mem_findFinalDFAStates]
    constructor
    · rintro ⟨n, hn, e, k, hk, hks⟩
      exact ⟨n, e, hn, k, hks, hk⟩
    · rintro ⟨n, e, hn, x, hx, hxf⟩
      exact ⟨n, hn, e, x, hxf, hx⟩
  · apply List.eq_nil_iff_forall_not_mem.mpr
    intro i hi
    rw [mem_findFinalDFAStates] at hi
    obtain ⟨_, _, _, k, hk, _⟩ := hi
    exact absurd hk (List.not_mem_nil _)

/-- C8: `eclosure` is idempotent: the closure of a closure is that closure. -/
theorem eclosure_idempotent (T : List Int) (NFATable : NFATableType) :
    eclosure (eclosure T NFATable) NFATable = eclosure T NFATable :=
  eclosure_of_closed _ NFATable (eclosure_sorted_le T NFATable) (eclosure_closed T NFATable)

/-- C9: the closure of the empty list and the move of the empty list are
empty. -/
theorem eclosure_move_of_empty (NFATable : NFATableType) (a : Char) :
    eclosure [] NFATable = [] ∧ move [] a NFATable = [] :=
  ⟨eclosure_nil NFATable, move_nil a NFATable⟩

/-- One more unit of fuel runs one more iteration of the `while` loop, if a
state is still unmarked. -/
theorem subsetLoop_succ (NFATable : NFATableType) (ALPHABET : List Char) :
    ∀ (n : Nat) (tbl : DFATableType),
      subsetLoop NFATable ALPHABET (n + 1) tbl =
        if 0 ≤ isAnythingUnmarked (subsetLoop NFATable ALPHABET n tbl)
        then subsetIteration NFATable ALPHABET (subsetLoop NFATable ALPHABET n tbl)
        else subsetLoop NFATable ALPHABET n tbl := by
  intro n
  induction n with
  | zero =>
    intro tbl
    simp only [subsetLoop, ge_iff_le]
  | succ m ih =>
    intro tbl
    by_cases hu : 0 ≤ isAnythingUnmarked tbl
    · have e1 : subsetLoop NFATable ALPHABET (m + 1 + 1) tbl =
          subsetLoop NFATable ALPHABET (m + 1) (subsetIteration NFATable ALPHABET tbl) := by
        simp only [subsetLoop, ge_iff_le, hu, if_true]
      have e2 : subsetLoop NFATable ALPHABET (m + 1) tbl =
          subsetLoop NFATable ALPHABET m (subsetIteration NFATable ALPHABET tbl) := by
        simp only [subsetLoop, ge_iff_le, hu, if_true]
      rw [e1, e2]
      exact ih _
    · have e1 : ∀ f, subsetLoop NFATable ALPHABET (f + 1) tbl = tbl := by
        intro f
        simp only [subsetLoop, ge_iff_le, hu, if_false]
      rw [e1, e1, if_neg hu]

/-- C10: the `while` loop of `subsetConstruction` terminates.  Within
`subsetFuel` iterations no state is unmarked, so `subsetConstruction` returns
a table on which `isAnythingUnmarked` is `-1`.  Every iteration that runs
marks a state of the table that was unmarked, keeps the states that exist, and
every state that it adds has a constituent vector that no earlier state has. -/
theorem subsetConstruction_terminates (initialState : Int) (finalStates : List Int)
    (NFATable : NFATableType) (ALPHABET : List Char) (_hA : ALPHABET ≠ []) :
    (∃ n : Nat, n ≤ subsetFuel initialState NFATable ∧
      isAnythingUnmarked (tableAfter initialState NFATable ALPHABET n) = -1) ∧
    isAnythingUnmarked (subsetConstruction initialState finalStates NFATable ALPHABET) = -1 ∧
    (∀ n : Nat, 0 ≤ isAnythingUnmarked (tableAfter initialState NFATable ALPHABET n) →
      tableAfter initialState NFATable ALPHABET (n + 1) =
        subsetIteration NFATable ALPHABET (tableAfter initialState NFATable ALPHABET n) ∧
      (isAnythingUnmarked (tableAfter initialState NFATable ALPHABET n)).toNat <
        (tableAfter initialState NFATable ALPHABET n).length ∧
      tableMarked (tableAfter initialState NFATable ALPHABET n)
        (isAnythingUnmarked (tableAfter initialState NFATable ALPHABET n)).toNat = false ∧
      tableMarked (tableAfter initialState NFATable ALPHABET (n + 1))
        (isAnythingUnmarked (tableAfter initialState NFATable ALPHABET n)).toNat = true ∧
      (tableAfter initialState NFATable ALPHABET n).length ≤
        (tableAfter initialState NFATable ALPHABET (n + 1)).length ∧
      (∀ i < (tableAfter initialState NFATable ALPHABET n).length,
        tableStates (tableAfter initialState NFATable ALPHABET (n + 1)) i =
          tableStates (tableAfter initialState NFATable ALPHABET n) i) ∧
      (∀ i, (tableAfter initialState NFATable ALPHABET n).length ≤ i →
        i < (tableAfter initialState NFATable ALPHABET (n + 1)).length →
        ∀ j < i, tableStates (tableAfter initialState NFATable ALPHABET (n + 1)) j ≠
          tableStates (tableAfter initialState NFATable ALPHABET (n + 1)) i)) := by
  refine ⟨⟨subsetFuel initialState NFATable, le_refl _,
      subsetLoop_fuel_enough initialState finalStates NFATable ALPHABET⟩,
    subsetLoop_fuel_enough initialState finalStates NFATable ALPHABET, ?_⟩
  intro n hu
  have hsucc : tableAfter initialState NFATable ALPHABET (n + 1) =
      subsetIteration NFATable ALPHABET (tableAfter initialState NFATable ALPHABET n) := by
    have hu2 := hu
    unfold tableAfter at hu2 ⊢
    rw [subsetLoop_succ, if_pos hu2]
  obtain ⟨hk, hkm⟩ := isAnythingUnmarked_nonneg hu
  have hext := subsetIteration_extends NFATable ALPHABET
    (tableAfter initialState NFATable ALPHABET n)
  have hcore : Core initialState NFATable (tableAfter initialState NFATable ALPHABET (n + 1)) :=
    subsetLoop_core initialState NFATable ALPHABET (n + 1)
  refine ⟨hsucc, hk, hkm, ?_, ?_, ?_, ?_⟩
  · rw [hsucc, subsetIteration_marked, if_pos ⟨rfl, hk⟩]
  · rw [hsucc]; exact hext.1
  · rw [hsucc]; exact hext.2
  · intro i _ hi j hj heq
    have := hcore.distinct j i (lt_trans hj hi) hi heq
    omega

/-- Witness for C10 on the scenario NFA. -/
theorem subsetConstruction_terminates_witness :
    ['a', 'b', 'E'] ≠ [] ∧
    isAnythingUnmarked (subsetConstruction 1 [3] scenarioNFA ['a', 'b', 'E']) = -1 :=
  ⟨by decide,
    (subsetConstruction_terminates 1 [3] scenarioNFA ['a', 'b', 'E'] (by decide)).2.1⟩

/-- Witness for C1 on the scenario NFA and the word `a`. -/
theorem subsetConstruction_language_equivalent_witness :
    (∀ c ∈ ['a'], c ∈ ['a', 'b'] ∧ c ≠ 'E') ∧
    (dfaAccepts (subsetConstruction 1 [3] scenarioNFA (['a', 'b'] ++ ['E'])) [3] ['a'] = true ↔
      nfaAccepts scenarioNFA 1 [3] ['a']) :=
  ⟨by decide, subsetConstruction_language_equivalent 1 [3] scenarioNFA ['a', 'b'] ['a'] (by decide)⟩

/-! ### Further properties of the construction -/

/-- The loop of `eclosure` only appends to the closure: the input list stays
at the front. -/
theorem eclosureRaw_extends_input (T : List Int) (NFATable : NFATableType) :
    ∃ Y, eclosureRaw T NFATable = T ++ Y := by
  have := eclosureLoop_induct NFATable (fun ecl _ => ∃ Y, ecl = T ++ Y)
    (by
      intro ecl cur st h
      obtain ⟨Y, rfl⟩ := h
      obtain ⟨X, h1, -⟩ := eclosureInner_spec (nfaAt NFATable cur 'E') (T ++ Y) st
      exact ⟨Y ++ X, by rw [h1, List.append_assoc]⟩)
    (eclosureFuel T NFATable) T T.reverse ⟨[], by simp⟩
  exact this

theorem eclosure_nodup_iff (T : List Int) (NFATable : NFATableType) :
    (eclosure T NFATable).Nodup ↔ T.Nodup := by
  rw [eclosure_eq_sort, (List.perm_insertionSort _ _).nodup_iff]
  constructor
  · intro h
    obtain ⟨Y, hY⟩ := eclosureRaw_extends_input T NFATable
    rw [hY] at h
    exact (List.nodup_append.mp h).1
  · exact eclosureRaw_nodup T NFATable

/-- Two strictly increasing lists with the same members are equal. -/
theorem eq_of_sameIdentifiers {A B : List Int} (hA : A.Sorted (· < ·)) (hB : B.Sorted (· < ·))
    (h : SameIdentifiers A B) : A = B :=
  List.eq_of_perm_of_sorted (r := (· ≤ ·))
    ((List.perm_ext_iff_of_nodup hA.nodup hB.nodup).mpr h) hA.le_of_lt hB.le_of_lt

/-- C11: on the scenario NFA (start state 1, accepting state 3, input symbols
`a` and `b`, so `ALPHABET = a, b, E`) `subsetConstruction` builds exactly two
DFA states, `[1,2]` and `[3]`; state 0 goes to state 1 on `a` and has `-1` on
`b`; state 1 has `-1` on `a` and on `b`; `findFinalDFAStates` returns `[1]`. -/
theorem scenario_table :
    (subsetConstruction 1 [3] scenarioNFA ['a', 'b', 'E']).length = 2 ∧
    tableStates (subsetConstruction 1 [3] scenarioNFA ['a', 'b', 'E']) 0 = [1, 2] ∧
    tableStates (subsetConstruction 1 [3] scenarioNFA ['a', 'b', 'E']) 1 = [3] ∧
    tableMoves (subsetConstruction 1 [3] scenarioNFA ['a', 'b', 'E']) 0 'a' = some 1 ∧
    tableMoves (subsetConstruction 1 [3] scenarioNFA ['a', 'b', 'E']) 0 'b' = some (-1) ∧
    tableMoves (subsetConstruction 1 [3] scenarioNFA ['a', 'b', 'E']) 1 'a' = some (-1) ∧
    tableMoves (subsetConstruction 1 [3] scenarioNFA ['a', 'b', 'E']) 1 'b' = some (-1) ∧
    findFinalDFAStates (subsetConstruction 1 [3] scenarioNFA ['a', 'b', 'E']) [3] = [1] := by
  decide

/-- C14, counterexample: the table holds the state `[1,2]`, which has the same
identifiers as `[2,1]`, and yet `isAMember([2,1], table)` is `-1`. -/
theorem isAMember_order_sensitive :
    isAMember [2, 1] [newDFAState false [1, 2]] = -1 ∧
    0 < [newDFAState false [1, 2]].length ∧
    SameIdentifiers (tableStates [newDFAState false [1, 2]] 0) [2, 1] := by
  refine ⟨by decide, by decide, ?_⟩
  intro x
  simp [tableStates, newDFAState]
  tauto

/-- C14, amended: for a DFA table with keys `0 .. n-1` (the list of its
states), when `state` and the constituent vectors of the table are in
canonical form (strictly increasing), `isAMember` returns the index of a DFA
state with the same identifiers as `state` whenever there is one, and `-1`
exactly when there is none. -/
theorem isAMember_canonical (state : List Int) (DFATable : DFATableType)
    (hs : state.Sorted (· < ·))
    (ht : ∀ i < DFATable.length, (tableStates DFATable i).Sorted (· < ·)) :
    (isAMember state DFATable = -1 ↔
      ∀ i < DFATable.length, ¬ SameIdentifiers (tableStates DFATable i) state) ∧
    ((∃ i, i < DFATable.length ∧ SameIdentifiers (tableStates DFATable i) state) →
      ∃ n : Nat, n < DFATable.length ∧ isAMember state DFATable = (n : Int) ∧
        SameIdentifiers (tableStates DFATable n) state) := by
  rcases isAMember_spec state DFATable with ⟨h1, h2⟩ | ⟨n, hn, h1, h2⟩
  · constructor
    · refine ⟨fun _ i hi hsame => h2 i hi (eq_of_sameIdentifiers (ht i hi) hs hsame), fun _ => h1⟩
    · rintro ⟨i, hi, hsame⟩
      exact absurd (eq_of_sameIdentifiers (ht i hi) hs hsame) (h2 i hi)
  · have hsame : SameIdentifiers (tableStates DFATable n) state := by
      intro x; rw [h2]
    constructor
    · constructor
      · intro h; rw [h1] at h; omega
      · intro h; exact absurd hsame (h n hn)
    · intro _
      exact ⟨n, hn, h1, hsame⟩

/-- Witness for C14 (amended): the canonical vector `[1,2]` is found at index 0. -/
theorem isAMember_canonical_witness :
    ∃ n : Nat, n < [newDFAState false [1, 2]].length ∧
      isAMember [1, 2] [newDFAState false [1, 2]] = (n : Int) ∧
      SameIdentifiers (tableStates [newDFAState false [1, 2]] n) [1, 2] :=
  (isAMember_canonical [1, 2] [newDFAState false [1, 2]] (by decide)
    (by
      intro i hi
      have : i = 0 := by simpa using hi
      subst this
      decide)).2 ⟨0, by decide, fun _ => Iff.rfl⟩

/-- C16, counterexample: on the input `[1,1]` the result of `eclosure` repeats
the state 1. -/
theorem eclosure_keeps_duplicates :
    eclosure [1, 1] scenarioNFA = [1, 1, 2] ∧ ¬ (eclosure [1, 1] scenarioNFA).Nodup := by
  decide

/-- C16, amended: for every input list the result of `eclosure` is sorted
ascending, and it is free of duplicates exactly when the input is; so on a
duplicate-free input, in any order, the result is in canonical form. -/
theorem eclosure_canonical (T : List Int) (NFATable : NFATableType) :
    (eclosure T NFATable).Sorted (· ≤ ·) ∧
    ((eclosure T NFATable).Nodup ↔ T.Nodup) ∧
    (T.Nodup → (eclosure T NFATable).Sorted (· < ·)) :=
  ⟨eclosure_sorted_le T NFATable, eclosure_nodup_iff T NFATable,
    eclosure_sorted_lt T NFATable⟩

/-- C17: in an NFA table where no state has an `'E'` destination, the closure
of a canonical (strictly increasing) list is the list itself. -/
theorem eclosure_without_epsilon (T : List Int) (NFATable : NFATableType)
    (hE : ∀ s : Int, nfaAt NFATable s 'E' = []) (hT : T.Sorted (· < ·)) :
    eclosure T NFATable = T := by
  apply eclosure_of_closed T NFATable hT.le_of_lt
  intro s _ u hu
  rw [hE s] at hu
  exact absurd hu (List.not_mem_nil _)

/-- Witness for C17 on an NFA without epsilon transitions. -/
theorem eclosure_without_epsilon_witness :
    (∀ s : Int, nfaAt noEpsilonNFA s 'E' = []) ∧ eclosure [1, 2] noEpsilonNFA = [1, 2] := by
  have hE : ∀ s : Int, nfaAt noEpsilonNFA s 'E' = [] := by
    intro s
    by_cases h1 : s = 1
    · subst h1; decide
    · by_cases h2 : s = 2
      · subst h2; decide
      · have b1 : (s == 1) = false := by simpa using h1
        have b2 : (s == 2) = false := by simpa using h2
        simp [nfaAt, noEpsilonNFA, List.lookup, b1, b2]
  exact ⟨hE, eclosure_without_epsilon [1, 2] noEpsilonNFA hE (by decide)⟩

/-- C20: with the accepting NFA states 1 and 2, DFA state 0 of the scenario
(constituent vector `[1,2]`) is listed twice by `findFinalDFAStates`, so the
result is not strictly ascending. -/
theorem findFinalDFAStates_repeats :
    [(1 : Int), 2].Nodup ∧
    findFinalDFAStates (subsetConstruction 1 [1, 2] scenarioNFA ['a', 'b', 'E']) [1, 2]
      = [0, 0] ∧
    ¬ (findFinalDFAStates (subsetConstruction 1 [1, 2] scenarioNFA ['a', 'b', 'E'])
        [1, 2]).Sorted (· < ·) := by
  decide

theorem subsetConstruction_eq_tableAfter (initialState : Int) (finalStates : List Int)
    (NFATable : NFATableType) (ALPHABET : List Char) :
    subsetConstruction initialState finalStates NFATable ALPHABET =
      tableAfter initialState NFATable ALPHABET (subsetFuel initialState NFATable) := rfl

theorem subsetSymbols_induct (NFATable : NFATableType) (syms : List Char)
    (P : DFATableType → Prop)
    (hsym : ∀ t k w, P t → w ∈ syms → P (subsetSymbol NFATable k w t)) (k : Nat) :
    ∀ (ws : List Char), (∀ w ∈ ws, w ∈ syms) → ∀ t, P t → P (subsetSymbols NFATable k ws t) := by
  intro ws
  induction ws with
  | nil => intro _ t h; exact h
  | cons w rest ih =>
    intro hws t h
    exact ih (fun x hx => hws x (List.mem_cons_of_mem _ hx)) _
      (hsym t k w h (hws w (List.mem_cons_self _ _)))

/-- Induction principle for the construction: a property of the table that
holds initially and is kept by marking a state and by the body of the `for`
loop holds after any number of iterations of the `while` loop. -/
theorem tableAfter_induct (initialState : Int) (NFATable : NFATableType)
    (ALPHABET : List Char) (P : DFATableType → Prop)
    (h0 : P (initialTable initialState NFATable))
    (hmark : ∀ t k, P t → P (tableMark t k))
    (hsym : ∀ t k w, P t → w ∈ iteratedSymbols ALPHABET → P (subsetSymbol NFATable k w t)) :
    ∀ n, P (tableAfter initialState NFATable ALPHABET n) := by
  intro n
  apply subsetLoop_induct NFATable ALPHABET P _ n _ h0
  intro t ht _
  exact subsetSymbols_induct NFATable (iteratedSymbols ALPHABET) P hsym _ _
    (fun w hw => hw) _ (hmark t _ ht)

/-- Induction principle for the constituent vectors: a property that holds for
the closure of the start state and is kept by `S ↦ eclosure(move(S, a))` holds
for every constituent vector of the table. -/
theorem tableStates_induct (initialState : Int) (NFATable : NFATableType)
    (ALPHABET : List Char) (Q : List Int → Prop)
    (h0 : Q (eclosure [initialState] NFATable))
    (hstep : ∀ S a, Q S → a ∈ iteratedSymbols ALPHABET →
      eclosure (move S a NFATable) NFATable ≠ [] → Q (eclosure (move S a NFATable) NFATable)) :
    ∀ n, ∀ i < (tableAfter initialState NFATable ALPHABET n).length,
      Q (tableStates (tableAfter initialState NFATable ALPHABET n) i) := by
  apply tableAfter_induct initialState NFATable ALPHABET
    (fun t => ∀ i < t.length, Q (tableStates t i))
  · intro i hi
    have : i = 0 := by simp [initialTable] at hi; omega
    subst this
    exact h0
  · intro t k h i hi
    rw [tableMark_states]
    exact h i (by rwa [tableMark_length] at hi)
  · intro t k w h hw i hi
    rcases subsetSymbol_cases NFATable k w t with ⟨n, -, -, e⟩ | ⟨-, h2, e⟩ | ⟨-, -, e⟩
    · rw [e] at hi ⊢
      rw [tableSetMove_states]
      exact h i (by rwa [tableSetMove_length] at hi)
    · rw [e] at hi ⊢
      rw [tableSetMove_length] at hi
      rw [tableSetMove_states]
      have hi2 : i < t.length + 1 := by simpa using hi
      rcases Nat.lt_succ_iff_lt_or_eq.mp hi2 with h3 | h3
      · rw [tableStates_append_left _ _ i h3]; exact h i h3
      · subst h3
        rw [tableStates_append_new]
        have hk : k < t.length := by
          by_contra hcon
          apply h2
          rw [tableStates_of_le t k (by omega), move_nil, eclosure_nil]
        exact hstep _ w (h k hk) hw h2
    · rw [e] at hi ⊢
      rw [tableSetMove_states]
      exact h i (by rwa [tableSetMove_length] at hi)

theorem tableMoves_of_le (tbl : DFATableType) (k : Nat) (c : Char) (h : tbl.length ≤ k) :
    tableMoves tbl k c = none := by
  simp [tableMoves, List.getElem?_eq_none h]

theorem tableSetMove_movesWF {syms : List Char} {tbl : DFATableType} (k : Nat) (w : Char)
    (j : Int) (h : MovesWF syms tbl) (hw : w ∈ syms)
    (hj : j = -1 ∨ (0 ≤ j ∧ j < (tbl.length : Int))) :
    MovesWF syms (tableSetMove tbl k w j) := by
  intro i c v hv
  rw [tableSetMove_moves] at hv
  rw [tableSetMove_length]
  split at hv
  · rename_i hc
    obtain ⟨-, rfl, -⟩ := hc
    cases hv
    exact ⟨hw, hj⟩
  · exact h i c v hv

theorem append_movesWF {syms : List Char} {tbl : DFATableType} (S : List Int)
    (h : MovesWF syms tbl) : MovesWF syms (tbl ++ [newDFAState false S]) := by
  intro i c v hv
  rcases Nat.lt_trichotomy i tbl.length with hi | hi | hi
  · rw [tableMoves_append_left _ _ i c hi] at hv
    obtain ⟨h1, h2⟩ := h i c v hv
    refine ⟨h1, ?_⟩
    rcases h2 with h2 | h2
    · exact Or.inl h2
    · right
      simp only [List.length_append, List.length_singleton]
      push_cast
      omega
  · subst hi
    rw [tableMoves_append_new] at hv
    simp [newDFAState] at hv
  · rw [tableMoves_of_le _ _ _ (by simp; omega)] at hv
    cases hv

/-- After any number of iterations of the `while` loop every `moves` entry is
an entry for an iterated symbol and holds `-1` or an index of the table. -/
theorem tableAfter_movesWF (initialState : Int) (NFATable : NFATableType)
    (ALPHABET : List Char) (n : Nat) :
    MovesWF (iteratedSymbols ALPHABET) (tableAfter initialState NFATable ALPHABET n) := by
  apply tableAfter_induct initialState NFATable ALPHABET (MovesWF (iteratedSymbols ALPHABET))
  · intro i c v hv
    rcases Nat.eq_zero_or_pos i with hi | hi
    · subst hi
      simp [initialTable, tableMoves, newDFAState] at hv
    · rw [tableMoves_of_le _ _ _ (by simp [initialTable]; omega)] at hv
      cases hv
  · intro t k h i c v hv
    rw [tableMark_moves] at hv
    rw [tableMark_length]
    exact h i c v hv
  · intro t k w h hw
    rcases subsetSymbol_cases NFATable k w t with ⟨m, hm, -, e⟩ | ⟨-, -, e⟩ | ⟨-, -, e⟩
    · rw [e]
      exact tableSetMove_movesWF k w _ h hw (Or.inr ⟨by omega, by omega⟩)
    · rw [e]
      apply tableSetMove_movesWF k w _ (append_movesWF _ h) hw
      right
      simp only [List.length_append, List.length_singleton]
      push_cast
      omega
    · rw [e]
      exact tableSetMove_movesWF k w _ h hw (Or.inl rfl)

theorem subsetConstruction_movesWF (initialState : Int) (finalStates : List Int)
    (NFATable : NFATableType) (ALPHABET : List Char) :
    MovesWF (iteratedSymbols ALPHABET)
      (subsetConstruction initialState finalStates NFATable ALPHABET) :=
  tableAfter_movesWF initialState NFATable ALPHABET _

/-- In the final table the `moves` map of every state has an entry exactly for
the iterated symbols. -/
theorem subsetConstruction_moves_isSome (initialState : Int) (finalStates : List Int)
    (NFATable : NFATableType) (ALPHABET : List Char) (k : Nat) (c : Char)
    (hk : k < (subsetConstruction initialState finalStates NFATable ALPHABET).length) :
    (∃ j, tableMoves (subsetConstruction initialState finalStates NFATable ALPHABET) k c
        = some j) ↔ c ∈ iteratedSymbols ALPHABET := by
  constructor
  · rintro ⟨j, hj⟩
    exact (subsetConstruction_movesWF initialState finalStates NFATable ALPHABET k c j hj).1
  · intro hc
    rcases subsetConstruction_moveOK initialState finalStates NFATable ALPHABET k hk c hc with
      ⟨-, h⟩ | ⟨j, -, h, -⟩
    · exact ⟨_, h⟩
    · exact ⟨_, h⟩

theorem epsReach_cases {NFATable : NFATableType} {x y : Int}
    (h : EpsReach NFATable x y) : y = x ∨ ∃ z, y ∈ nfaAt NFATable z 'E' := by
  induction h with
  | refl => exact Or.inl rfl
  | tail _ hstep _ => exact Or.inr ⟨_, hstep⟩

theorem nfaReach_trans_epsReach {NFATable : NFATableType} {ALPHABET : List Char} {x y z : Int}
    (h1 : NfaReach NFATable ALPHABET x y) (h2 : EpsReach NFATable y z) :
    NfaReach NFATable ALPHABET x z := by
  induction h2 with
  | refl => exact h1
  | tail _ hstep ih => exact Relation.ReflTransGen.tail ih (Or.inl hstep)

theorem mem_of_mem_iteratedSymbols {ALPHABET : List Char} {c : Char}
    (h : c ∈ iteratedSymbols ALPHABET) : c ∈ ALPHABET :=
  List.dropLast_subset ALPHABET h

theorem tableWF_of {initialState : Int} {NFATable : NFATableType} {syms : List Char}
    {tbl : DFATableType} (hc : Core initialState NFATable tbl) (hm : MovesWF syms tbl) :
    TableWF tbl :=
  ⟨hc.nonempty, hc.ne_nil, fun k c j h => (hm k c j h).2⟩

theorem tableAfter_succ_extends (initialState : Int) (NFATable : NFATableType)
    (ALPHABET : List Char) (n : Nat) :
    Extends (tableAfter initialState NFATable ALPHABET n)
      (tableAfter initialState NFATable ALPHABET (n + 1)) := by
  unfold tableAfter
  rw [subsetLoop_succ]
  split
  · exact subsetIteration_extends NFATable ALPHABET _
  · exact Extends.refl _

/-- A table of pairwise distinct, strictly increasing vectors over a finite
set `U` of states has at most `2 ^ |U|` entries. -/
theorem length_le_two_pow_card (tbl : DFATableType) (U : Finset Int)
    (hsorted : ∀ i < tbl.length, (tableStates tbl i).Sorted (· < ·))
    (hdistinct : ∀ i j, i < tbl.length → j < tbl.length →
      tableStates tbl i = tableStates tbl j → i = j)
    (hmem : ∀ i < tbl.length, ∀ x ∈ tableStates tbl i, x ∈ U) :
    tbl.length ≤ 2 ^ U.card := by
  have hinj : Set.InjOn (fun i : Nat => (tableStates tbl i).toFinset)
      (Finset.range tbl.length : Finset Nat) := by
    intro i hi j hj hij
    simp only [Finset.coe_range, Set.mem_Iio] at hi hj
    simp only at hij
    apply hdistinct i j hi hj
    apply eq_of_sameIdentifiers (hsorted i hi) (hsorted j hj)
    intro x
    have := congrArg (fun s => x ∈ s) hij
    simpa using this
  have hsub : ∀ i ∈ Finset.range tbl.length,
      (fun i : Nat => (tableStates tbl i).toFinset) i ∈ U.powerset := by
    intro i hi
    rw [Finset.mem_range] at hi
    rw [Finset.mem_powerset]
    intro x hx
    rw [List.mem_toFinset] at hx
    exact hmem i hi x hx
  have hcard := Finset.card_le_card_of_injOn _ hsub hinj
  rwa [Finset.card_range, Finset.card_powerset] at hcard

/-- C12, counterexample: for the NFA without epsilon transitions and
`ALPHABET = a, b` the construction computes no transition for the last symbol
`b`, although `b` is a non-epsilon symbol of `ALPHABET`. -/
theorem last_symbol_not_iterated :
    ¬ (∀ k < (subsetConstruction 1 [2] twoSymbolNFA ['a', 'b']).length,
        ∀ c ∈ ['a', 'b'], c ≠ 'E' →
          ∃ j, tableMoves (subsetConstruction 1 [2] twoSymbolNFA ['a', 'b']) k c = some j) := by
  intro h
  obtain ⟨j, hj⟩ := h 0 (by decide) 'b' (by decide) (by decide)
  have hn : tableMoves (subsetConstruction 1 [2] twoSymbolNFA ['a', 'b']) 0 'b' = none := by
    decide
  rw [hn] at hj
  cases hj

/-- C12, amended: for every non-empty `ALPHABET` (on an empty one the loop over
the alphabet is not defined), in the final table the `moves` map of every DFA
state has an entry (a destination index or `-1`) for exactly the symbols of
`ALPHABET` before its last element.  When `ALPHABET` is a list of non-epsilon
symbols followed by `'E'`, that is an entry for every non-epsilon symbol of
`ALPHABET` and no entry for `'E'`. -/
theorem moves_entries_exact (initialState : Int) (finalStates : List Int)
    (NFATable : NFATableType) (ALPHABET : List Char) (k : Nat) (_hA : ALPHABET ≠ [])
    (hk : k < (subsetConstruction initialState finalStates NFATable ALPHABET).length) :
    (∀ c : Char,
      (∃ j, tableMoves (subsetConstruction initialState finalStates NFATable ALPHABET) k c
          = some j ∧
        (j = -1 ∨ (0 ≤ j ∧
          j < ((subsetConstruction initialState finalStates NFATable ALPHABET).length : Int))))
      ↔ c ∈ iteratedSymbols ALPHABET) ∧
    (∀ c : Char,
      tableMoves (subsetConstruction initialState finalStates NFATable ALPHABET) k c = none
      ↔ c ∉ iteratedSymbols ALPHABET) ∧
    (∀ syms : List Char, ALPHABET = syms ++ ['E'] → 'E' ∉ syms →
      (∀ c ∈ ALPHABET, c ≠ 'E' →
        ∃ j, tableMoves (subsetConstruction initialState finalStates NFATable ALPHABET) k c
          = some j) ∧
      tableMoves (subsetConstruction initialState finalStates NFATable ALPHABET) k 'E'
        = none) := by
  have hsome := subsetConstruction_moves_isSome initialState finalStates NFATable ALPHABET k
  have hwf := subsetConstruction_movesWF initialState finalStates NFATable ALPHABET
  have hnone : ∀ c : Char,
      tableMoves (subsetConstruction initialState finalStates NFATable ALPHABET) k c = none
        ↔ c ∉ iteratedSymbols ALPHABET := by
    intro c
    rw [← hsome c hk]
    cases tableMoves (subsetConstruction initialState finalStates NFATable ALPHABET) k c <;>
      simp
  refine ⟨?_, hnone, ?_⟩
  · intro c
    rw [← hsome c hk]
    constructor
    · rintro ⟨j, hj, -⟩; exact ⟨j, hj⟩
    · rintro ⟨j, hj⟩; exact ⟨j, hj, (hwf k c j hj).2⟩
  · intro syms hA hE
    have hit : iteratedSymbols ALPHABET = syms := by
      rw [hA]; exact iteratedSymbols_concat syms 'E'
    constructor
    · intro c hc hne
      apply (hsome c hk).mpr
      rw [hit]
      rw [hA] at hc
      rcases List.mem_append.mp hc with h1 | h1
      · exact h1
      · rw [List.mem_singleton] at h1
        exact absurd h1 hne
    · apply (hnone 'E').mpr
      rw [hit]
      exact hE

/-- Witness for C12 (amended) on the scenario NFA with `ALPHABET = a, b, E`:
state 0 has an entry for `a` and for `b` and none for `E`. -/
theorem moves_entries_exact_witness :
    ['a', 'b', 'E'] ≠ [] ∧
    0 < (subsetConstruction 1 [3] scenarioNFA ['a', 'b', 'E']).length ∧
    (∀ c ∈ ['a', 'b', 'E'], c ≠ 'E' →
      ∃ j, tableMoves (subsetConstruction 1 [3] scenarioNFA ['a', 'b', 'E']) 0 c = some j) ∧
    tableMoves (subsetConstruction 1 [3] scenarioNFA ['a', 'b', 'E']) 0 'E' = none :=
  ⟨by decide, by decide,
    (moves_entries_exact 1 [3] scenarioNFA ['a', 'b', 'E'] 0 (by decide) (by decide)).2.2
      ['a', 'b'] (by decide) (by decide)⟩

/-- C13: every NFA state in a constituent vector of the final table is
reachable from the start state by epsilon and alphabet-symbol transitions; a
state that is not reachable occurs in no constituent vector.  (The loop over
the alphabet is defined for a non-empty `ALPHABET` only.) -/
theorem constituents_reachable (initialState : Int) (finalStates : List Int)
    (NFATable : NFATableType) (ALPHABET : List Char) (_hA : ALPHABET ≠ []) :
    (∀ i < (subsetConstruction initialState finalStates NFATable ALPHABET).length,
      ∀ x ∈ tableStates (subsetConstruction initialState finalStates NFATable ALPHABET) i,
        NfaReach NFATable ALPHABET initialState x) ∧
    (∀ x : Int, ¬ NfaReach NFATable ALPHABET initialState x →
      ∀ i < (subsetConstruction initialState finalStates NFATable ALPHABET).length,
        x ∉ tableStates (subsetConstruction initialState finalStates NFATable ALPHABET) i) := by
  have key : ∀ i < (subsetConstruction initialState finalStates NFATable ALPHABET).length,
      ∀ x ∈ tableStates (subsetConstruction initialState finalStates NFATable ALPHABET) i,
        NfaReach NFATable ALPHABET initialState x := by
    rw [subsetConstruction_eq_tableAfter]
    apply tableStates_induct initialState NFATable ALPHABET
      (fun S => ∀ x ∈ S, NfaReach NFATable ALPHABET initialState x)
    · intro x hx
      obtain ⟨t, ht, hr⟩ := (mem_eclosure_iff _ _ _).mp hx
      rw [List.mem_singleton] at ht
      subst ht
      exact nfaReach_trans_epsReach Relation.ReflTransGen.refl hr
    · intro S a hS ha _ x hx
      obtain ⟨t, ht, hr⟩ := (mem_eclosure_iff _ _ _).mp hx
      obtain ⟨s, hs, hst⟩ := (mem_move_iff _ _ _ _).mp ht
      exact nfaReach_trans_epsReach
        (Relation.ReflTransGen.tail (hS s hs) (Or.inr ⟨a, mem_of_mem_iteratedSymbols ha, hst⟩)) hr
  exact ⟨key, fun x hx i hi hmem => hx (key i hi x hmem)⟩

/-- Witness for C13 on the scenario NFA: state 3, a member of DFA state 1, is
reachable from the start state 1. -/
theorem constituents_reachable_witness :
    ['a', 'b', 'E'] ≠ [] ∧ NfaReach scenarioNFA ['a', 'b', 'E'] 1 3 :=
  ⟨by decide,
    (constituents_reachable 1 [3] scenarioNFA ['a', 'b', 'E'] (by decide)).1 1 (by decide) 3
      (by decide)⟩

/-- C18: when the start state and every transition destination lie in
`1 .. N`, the table built by `subsetConstruction` has at most `2 ^ N` states.
(The loop over the alphabet is defined for a non-empty `ALPHABET` only.) -/
theorem dfa_state_count_le (initialState : Int) (finalStates : List Int)
    (NFATable : NFATableType) (ALPHABET : List Char) (N : Nat) (_hA : ALPHABET ≠ [])
    (hstart : 1 ≤ initialState ∧ initialState ≤ (N : Int))
    (hdest : ∀ (s : Int) (c : Char), ∀ x ∈ nfaAt NFATable s c, 1 ≤ x ∧ x ≤ (N : Int)) :
    (subsetConstruction initialState finalStates NFATable ALPHABET).length ≤ 2 ^ N := by
  have hcore := subsetConstruction_core initialState finalStates NFATable ALPHABET
  have hrange : ∀ i < (subsetConstruction initialState finalStates NFATable ALPHABET).length,
      ∀ x ∈ tableStates (subsetConstruction initialState finalStates NFATable ALPHABET) i,
        x ∈ Finset.Icc (1 : Int) (N : Int) := by
    rw [subsetConstruction_eq_tableAfter]
    apply tableStates_induct initialState NFATable ALPHABET
      (fun S => ∀ x ∈ S, x ∈ Finset.Icc (1 : Int) (N : Int))
    · intro x hx
      rw [Finset.mem_Icc]
      obtain ⟨t, ht, hr⟩ := (mem_eclosure_iff _ _ _).mp hx
      rw [List.mem_singleton] at ht
      subst ht
      rcases epsReach_cases hr with rfl | ⟨z, hz⟩
      · exact hstart
      · exact hdest z 'E' x hz
    · intro S a _ _ _ x hx
      rw [Finset.mem_Icc]
      obtain ⟨t, ht, hr⟩ := (mem_eclosure_iff _ _ _).mp hx
      obtain ⟨s, -, hst⟩ := (mem_move_iff _ _ _ _).mp ht
      rcases epsReach_cases hr with rfl | ⟨z, hz⟩
      · exact hdest s a x hst
      · exact hdest z 'E' x hz
  have := length_le_two_pow_card _ (Finset.Icc (1 : Int) (N : Int)) hcore.sorted
    hcore.distinct hrange
  simpa [Int.card_Icc] using this

/-- Witness for C18 on the scenario NFA with `N = 3`. -/
theorem dfa_state_count_le_witness :
    (subsetConstruction 1 [3] scenarioNFA ['a', 'b', 'E']).length ≤ 2 ^ 3 :=
  dfa_state_count_le 1 [3] scenarioNFA ['a', 'b', 'E'] 3 (by decide) (by decide)
    (by
      intro s c x hx
      have h := nfaAt_subset_nfaDests scenarioNFA s c x hx
      have e : nfaDests scenarioNFA = [2, 3] := by decide
      rw [e] at h
      simp at h
      omega)

theorem SubsetReach.mono {initialState : Int} {NFATable : NFATableType}
    {syms1 syms2 : List Char} (h : ∀ c ∈ syms1, c ∈ syms2) {S : List Int}
    (hS : SubsetReach initialState NFATable syms1 S) :
    SubsetReach initialState NFATable syms2 S := by
  induction hS with
  | start => exact SubsetReach.start
  | step _ ha hne ih => exact SubsetReach.step ih (h _ ha) hne

/-- Every constituent vector of the final table is a discovered subset. -/
theorem tableStates_subsetReach (initialState : Int) (finalStates : List Int)
    (NFATable : NFATableType) (ALPHABET : List Char) :
    ∀ i < (subsetConstruction initialState finalStates NFATable ALPHABET).length,
      SubsetReach initialState NFATable (iteratedSymbols ALPHABET)
        (tableStates (subsetConstruction initialState finalStates NFATable ALPHABET) i) := by
  rw [subsetConstruction_eq_tableAfter]
  exact tableStates_induct initialState NFATable ALPHABET
    (SubsetReach initialState NFATable (iteratedSymbols ALPHABET))
    SubsetReach.start (fun S a hS ha hne => SubsetReach.step hS ha hne) _

/-- Every discovered subset is a constituent vector of the final table. -/
theorem subsetReach_in_table (initialState : Int) (finalStates : List Int)
    (NFATable : NFATableType) (ALPHABET : List Char) {S : List Int}
    (hS : SubsetReach initialState NFATable (iteratedSymbols ALPHABET) S) :
    ∃ i, i < (subsetConstruction initialState finalStates NFATable ALPHABET).length ∧
      tableStates (subsetConstruction initialState finalStates NFATable ALPHABET) i = S := by
  have hcore := subsetConstruction_core initialState finalStates NFATable ALPHABET
  induction hS with
  | start => exact ⟨0, hcore.nonempty, hcore.zero⟩
  | step _ ha hne ih =>
    obtain ⟨i, hi, rfl⟩ := ih
    rcases subsetConstruction_moveOK initialState finalStates NFATable ALPHABET i hi _ ha with
      ⟨h1, -⟩ | ⟨j, hj, -, h2⟩
    · exact absurd h1 hne
    · exact ⟨j, hj, h2⟩

/-- In the final table the destination of every state on every symbol is the
one that the subset construction prescribes. -/
theorem dfaDest_eq_subsetDest (initialState : Int) (finalStates : List Int)
    (NFATable : NFATableType) (ALPHABET : List Char) (k : Nat) (a : Char)
    (hk : k < (subsetConstruction initialState finalStates NFATable ALPHABET).length) :
    dfaDest (subsetConstruction initialState finalStates NFATable ALPHABET) k a =
      subsetDest NFATable (iteratedSymbols ALPHABET)
        (tableStates (subsetConstruction initialState finalStates NFATable ALPHABET) k) a := by
  have hcore := subsetConstruction_core initialState finalStates NFATable ALPHABET
  by_cases ha : a ∈ iteratedSymbols ALPHABET
  · rcases subsetConstruction_moveOK initialState finalStates NFATable ALPHABET k hk a ha with
      ⟨h1, h2⟩ | ⟨j, hj, h1, h2⟩
    · simp [dfaDest, subsetDest, h1, h2]
    · have hne : eclosure (move (tableStates
          (subsetConstruction initialState finalStates NFATable ALPHABET) k) a NFATable)
          NFATable ≠ [] := by
        rw [← h2]; exact hcore.ne_nil j hj
      have hj1 : ¬ ((j : Int) = -1) := by omega
      simp only [dfaDest, subsetDest, h1, hj1, if_false, Int.toNat_ofNat, h2, ha, hne,
        ne_eq, not_false_eq_true, and_self, if_true]
  · have hnone : tableMoves (subsetConstruction initialState finalStates NFATable ALPHABET) k a
        = none := by
      cases h : tableMoves (subsetConstruction initialState finalStates NFATable ALPHABET) k a
        with
      | none => rfl
      | some j =>
        exact absurd
          (subsetConstruction_movesWF initialState finalStates NFATable ALPHABET k a j h).1 ha
    simp [dfaDest, subsetDest, hnone, ha]

/-- C15, counterexample: for the NFA without epsilon transitions, the alphabet
sequences `a, b` and `b, a` list the same non-epsilon symbols in different
orders, and `[2]` is a constituent vector of the second DFA but not of the
first. -/
theorem alphabet_order_matters :
    (∃ j, j < (subsetConstruction 1 [2] twoSymbolNFA ['b', 'a']).length ∧
      tableStates (subsetConstruction 1 [2] twoSymbolNFA ['b', 'a']) j = [2]) ∧
    ¬ (∃ i, i < (subsetConstruction 1 [2] twoSymbolNFA ['a', 'b']).length ∧
      tableStates (subsetConstruction 1 [2] twoSymbolNFA ['a', 'b']) i = [2]) := by
  refine ⟨⟨1, by decide, by decide⟩, ?_⟩
  rintro ⟨i, hi, h⟩
  have hl : (subsetConstruction 1 [2] twoSymbolNFA ['a', 'b']).length = 1 := by decide
  rw [hl] at hi
  have : i = 0 := by omega
  subst this
  revert h
  decide

/-- C15, amended: for two alphabet sequences whose symbols before the last
element are the same symbols, in whatever order (such as two sequences that
list the same non-epsilon symbols in different orders, each followed by the
epsilon symbol `'E'`), the two DFAs built by `subsetConstruction` have the
same constituent vectors, and states with the same constituent vector have the
same destination vector, or both no transition, on every symbol. -/
theorem alphabet_order_independent (initialState : Int) (finalStates : List Int)
    (NFATable : NFATableType) (A1 A2 : List Char) (_h1 : A1 ≠ []) (_h2 : A2 ≠ [])
    (hsame : ∀ c, c ∈ iteratedSymbols A1 ↔ c ∈ iteratedSymbols A2) :
    (∀ S : List Int,
      (∃ i, i < (subsetConstruction initialState finalStates NFATable A1).length ∧
        tableStates (subsetConstruction initialState finalStates NFATable A1) i = S) ↔
      (∃ j, j < (subsetConstruction initialState finalStates NFATable A2).length ∧
        tableStates (subsetConstruction initialState finalStates NFATable A2) j = S)) ∧
    (∀ i j : Nat,
      i < (subsetConstruction initialState finalStates NFATable A1).length →
      j < (subsetConstruction initialState finalStates NFATable A2).length →
      tableStates (subsetConstruction initialState finalStates NFATable A1) i =
        tableStates (subsetConstruction initialState finalStates NFATable A2) j →
      ∀ a : Char,
        dfaDest (subsetConstruction initialState finalStates NFATable A1) i a =
          dfaDest (subsetConstruction initialState finalStates NFATable A2) j a) := by
  constructor
  · intro S
    constructor
    · rintro ⟨i, hi, rfl⟩
      exact subsetReach_in_table initialState finalStates NFATable A2
        ((tableStates_subsetReach initialState finalStates NFATable A1 i hi).mono
          (fun c hc => (hsame c).mp hc))
    · rintro ⟨j, hj, rfl⟩
      exact subsetReach_in_table initialState finalStates NFATable A1
        ((tableStates_subsetReach initialState finalStates NFATable A2 j hj).mono
          (fun c hc => (hsame c).mpr hc))
  · intro i j hi hj heq a
    rw [dfaDest_eq_subsetDest initialState finalStates NFATable A1 i a hi,
      dfaDest_eq_subsetDest initialState finalStates NFATable A2 j a hj, heq]
    unfold subsetDest
    simp only [hsame a]

/-- Witness for C15 (amended): the alphabets `a, b, E` and `b, a, E` on the
scenario NFA; the state `[1,2]` has the same destination on `a` in both. -/
theorem alphabet_order_independent_witness :
    dfaDest (subsetConstruction 1 [3] scenarioNFA ['a', 'b', 'E']) 0 'a' =
      dfaDest (subsetConstruction 1 [3] scenarioNFA ['b', 'a', 'E']) 0 'a' :=
  (alphabet_order_independent 1 [3] scenarioNFA ['a', 'b', 'E'] ['b', 'a', 'E']
    (by decide) (by decide) (by intro c; simp [iteratedSymbols]; tauto)).2 0 0
    (by decide) (by decide) (by decide) 'a'

/-! ### The driver on the map and the driver on the list of states -/

theorem toMapFrom_length (tbl : List DFAState) : ∀ i, (toMapFrom i tbl).length = tbl.length := by
  induction tbl with
  | nil => intro i; rfl
  | cons s rest ih => intro i; simp [toMapFrom, ih]

theorem toMap_length (tbl : DFATableType) : (toMap tbl).length = tbl.length :=
  toMapFrom_length tbl 0

theorem toMapFrom_keys (tbl : List DFAState) : ∀ i,
    (toMapFrom i tbl).map Prod.fst = (List.range' i tbl.length).map (fun j : Nat => (j : Int)) := by
  induction tbl with
  | nil => intro i; rfl
  | cons s rest ih =>
    intro i
    simp [toMapFrom, ih, List.range'_succ]

theorem toMap_keys (tbl : DFATableType) :
    (toMap tbl).map Prod.fst = (List.range tbl.length).map (fun j : Nat => (j : Int)) := by
  rw [List.range_eq_range']
  exact toMapFrom_keys tbl 0

theorem mem_toMapFrom (tbl : List DFAState) : ∀ (i : Nat) (e : Int × DFAState),
    e ∈ toMapFrom i tbl → ∃ n, n < tbl.length ∧ e.1 = ((i + n : Nat) : Int) ∧ tbl[n]? = some e.2 := by
  induction tbl with
  | nil => intro i e h; simp [toMapFrom] at h
  | cons s rest ih =>
    intro i e h
    simp only [toMapFrom, List.mem_cons] at h
    rcases h with rfl | h
    · exact ⟨0, by simp, by simp, by simp⟩
    · obtain ⟨n, hn, h1, h2⟩ := ih (i + 1) e h
      refine ⟨n + 1, by simpa using hn, ?_, by simpa using h2⟩
      rw [h1]; congr 1; omega

theorem lookup_toMapFrom (tbl : List DFAState) : ∀ (i n : Nat),
    (toMapFrom i tbl).lookup ((i + n : Nat) : Int) = tbl[n]? := by
  induction tbl with
  | nil => intro i n; simp [toMapFrom]
  | cons s rest ih =>
    intro i n
    cases n with
    | zero => simp [toMapFrom, List.lookup_cons]
    | succ m =>
      have hb : (((i + (m + 1) : Nat) : Int) == ((i : Nat) : Int)) = false := by
        simp; omega
      have e : ((i + (m + 1) : Nat) : Int) = ((i + 1 + m : Nat) : Int) := by
        congr 1; omega
      simp only [toMapFrom, List.lookup_cons, hb]
      rw [e, ih]
      simp

theorem mapAt_toMap (tbl : DFATableType) (n : Nat) :
    mapAt (toMap tbl) (n : Int) = (tbl[n]?).getD defaultDFAState := by
  have := lookup_toMapFrom tbl 0 n
  simp only [Nat.zero_add] at this
  unfold mapAt toMap
  rw [this]
  cases tbl[n]? <;> rfl

theorem mapAt_toMap_states (tbl : DFATableType) (n : Nat) :
    (mapAt (toMap tbl) (n : Int)).states = tableStates tbl n := by
  rw [mapAt_toMap]
  unfold tableStates
  cases tbl[n]? <;> rfl

theorem mapAt_toMap_marked (tbl : DFATableType) (n : Nat) :
    (mapAt (toMap tbl) (n : Int)).marked = tableMarked tbl n := by
  rw [mapAt_toMap]
  unfold tableMarked
  cases tbl[n]? <;> rfl

theorem mapAssign_toMapFrom_set (tbl : List DFAState) (s : DFAState) : ∀ (i n : Nat),
    n < tbl.length →
    mapAssign (toMapFrom i tbl) ((i + n : Nat) : Int) s = toMapFrom i (tbl.set n s) := by
  induction tbl with
  | nil => intro i n h; simp at h
  | cons t rest ih =>
    intro i n h
    cases n with
    | zero => simp [toMapFrom, mapAssign]
    | succ m =>
      have h1 : ¬ ((i + (m + 1) : Nat) : Int) = ((i : Nat) : Int) := by omega
      have h2 : ¬ ((i + (m + 1) : Nat) : Int) < ((i : Nat) : Int) := by omega
      have e : ((i + (m + 1) : Nat) : Int) = ((i + 1 + m : Nat) : Int) := by
        congr 1; omega
      simp only [toMapFrom, mapAssign, h1, h2, if_false, List.set_cons_succ]
      rw [e, ih (i + 1) m (by simpa using h)]

theorem mapAssign_toMapFrom_append (tbl : List DFAState) (s : DFAState) : ∀ (i : Nat),
    mapAssign (toMapFrom i tbl) ((i + tbl.length : Nat) : Int) s = toMapFrom i (tbl ++ [s]) := by
  induction tbl with
  | nil => intro i; simp [toMapFrom, mapAssign]
  | cons t rest ih =>
    intro i
    have h1 : ¬ ((i + (rest.length + 1) : Nat) : Int) = ((i : Nat) : Int) := by omega
    have h2 : ¬ ((i + (rest.length + 1) : Nat) : Int) < ((i : Nat) : Int) := by omega
    have e : ((i + (rest.length + 1) : Nat) : Int) = ((i + 1 + rest.length : Nat) : Int) := by
      congr 1; omega
    simp only [toMapFrom, mapAssign, List.length_cons, h1, h2, if_false, List.cons_append]
    rw [e, ih (i + 1)]
    rfl

theorem mapAssign_toMap_set (tbl : DFATableType) (s : DFAState) (n : Nat) (h : n < tbl.length) :
    mapAssign (toMap tbl) (n : Int) s = toMap (tbl.set n s) := by
  have := mapAssign_toMapFrom_set tbl s 0 n h
  simpa [toMap] using this

theorem mapAssign_toMap_append (tbl : DFATableType) (s : DFAState) :
    mapAssign (toMap tbl) (tbl.length : Int) s = toMap (tbl ++ [s]) := by
  have := mapAssign_toMapFrom_append tbl s 0
  simpa [toMap] using this

theorem mapTouch_toMap (tbl : DFATableType) (k : Nat) (h : k < tbl.length) :
    mapTouch (toMap tbl) (k : Int) = toMap tbl := by
  unfold mapTouch
  rw [mapAt_toMap, mapAssign_toMap_set tbl _ k h, List.getElem?_eq_getElem h]
  simp only [Option.getD_some]
  congr 1
  apply List.ext_getElem?
  intro n
  by_cases hn : k = n
  · subst hn
    rw [List.getElem?_set_self h, List.getElem?_eq_getElem h]
  · rw [List.getElem?_set_ne hn]

theorem mapMark_toMap (tbl : DFATableType) (k : Nat) (h : k < tbl.length) :
    mapMark (toMap tbl) (k : Int) = toMap (tableMark tbl k) := by
  unfold mapMark tableMark
  rw [mapAt_toMap, mapAssign_toMap_set tbl _ k h, List.getElem?_eq_getElem h]
  simp

theorem mapSetMove_toMap (tbl : DFATableType) (k : Nat) (w : Char) (j : Int)
    (h : k < tbl.length) :
    mapSetMove (toMap tbl) (k : Int) w j = toMap (tableSetMove tbl k w j) := by
  unfold mapSetMove tableSetMove
  rw [mapAt_toMap, mapAssign_toMap_set tbl _ k h, List.getElem?_eq_getElem h]
  simp

theorem isAnythingUnmarkedMapLoop_toMap (rest : List DFAState) : ∀ (pre : List DFAState),
    isAnythingUnmarkedMapLoop (toMap (pre ++ rest)) rest.length (pre.length : Int) =
      isAnythingUnmarkedFrom pre.length rest := by
  induction rest with
  | nil => intro pre; rfl
  | cons s rest ih =>
    intro pre
    have hget : (pre ++ s :: rest)[pre.length]? = some s := by
      rw [List.getElem?_append_right (le_refl _)]; simp
    have hm : (mapAt (toMap (pre ++ s :: rest)) (pre.length : Int)).marked = s.marked := by
      rw [mapAt_toMap, hget]; rfl
    have hnext := ih (pre ++ [s])
    simp only [List.append_assoc, List.singleton_append, List.length_append,
      List.length_singleton, Nat.cast_add, Nat.cast_one] at hnext
    simp only [isAnythingUnmarkedMapLoop, isAnythingUnmarkedFrom, List.length_cons, hm, hnext]

theorem isAnythingUnmarkedMap_toMap (tbl : DFATableType) :
    isAnythingUnmarkedMap (toMap tbl) = isAnythingUnmarked tbl := by
  have := isAnythingUnmarkedMapLoop_toMap tbl []
  simpa [isAnythingUnmarkedMap, isAnythingUnmarked, toMap_length] using this

theorem isAMemberMapLoop_toMap (state : List Int) (rest : List DFAState) :
    ∀ (pre : List DFAState),
      isAMemberMapLoop state (toMap (pre ++ rest)) rest.length (pre.length : Int) =
        isAMemberFrom state pre.length rest := by
  induction rest with
  | nil => intro pre; rfl
  | cons s rest ih =>
    intro pre
    have hget : (pre ++ s :: rest)[pre.length]? = some s := by
      rw [List.getElem?_append_right (le_refl _)]; simp
    have hm : (mapAt (toMap (pre ++ s :: rest)) (pre.length : Int)).states = s.states := by
      rw [mapAt_toMap, hget]; rfl
    have hnext := ih (pre ++ [s])
    simp only [List.append_assoc, List.singleton_append, List.length_append,
      List.length_singleton, Nat.cast_add, Nat.cast_one] at hnext
    simp only [isAMemberMapLoop, isAMemberFrom, List.length_cons, hm, hnext]

theorem isAMemberMap_toMap (state : List Int) (tbl : DFATableType) :
    isAMemberMap state (toMap tbl) = isAMember state tbl := by
  have := isAMemberMapLoop_toMap state tbl []
  simpa [isAMemberMap, isAMember, toMap_length] using this

theorem subsetSymbolMap_toMap (NFATable : NFATableType) (k : Nat) (w : Char)
    (tbl : DFATableType) (h : k < tbl.length) :
    subsetSymbolMap NFATable (k : Int) w (toMap tbl, (tbl.length : Int)) =
      (toMap (subsetSymbol NFATable k w tbl),
        ((subsetSymbol NFATable k w tbl).length : Int)) := by
  have hk1 : k < (tbl ++ [newDFAState false
      (eclosure (move (tableStates tbl k) w NFATable) NFATable)]).length := by
    simp; omega
  simp only [subsetSymbolMap, subsetSymbol, mapTouch_toMap tbl k h, mapAt_toMap_states,
    isAMemberMap_toMap]
  split_ifs
  · rw [mapSetMove_toMap tbl k w _ h, tableSetMove_length]
  · rw [mapAssign_toMap_append, mapSetMove_toMap _ k w _ hk1, tableSetMove_length]
    simp
  · rw [mapSetMove_toMap tbl k w _ h, tableSetMove_length]

theorem subsetSymbolsMap_toMap (NFATable : NFATableType) (k : Nat) (ws : List Char) :
    ∀ (tbl : DFATableType), k < tbl.length →
      subsetSymbolsMap NFATable (k : Int) ws (toMap tbl, (tbl.length : Int)) =
        (toMap (subsetSymbols NFATable k ws tbl),
          ((subsetSymbols NFATable k ws tbl).length : Int)) := by
  induction ws with
  | nil => intro tbl _; rfl
  | cons w rest ih =>
    intro tbl h
    simp only [subsetSymbolsMap, subsetSymbols]
    rw [subsetSymbolMap_toMap NFATable k w tbl h]
    exact ih _ (lt_of_lt_of_le h (subsetSymbol_extends NFATable k w tbl).1)

theorem subsetIterationMap_toMap (NFATable : NFATableType) (ALPHABET : List Char)
    (tbl : DFATableType) (hu : 0 ≤ isAnythingUnmarked tbl) :
    subsetIterationMap NFATable ALPHABET (toMap tbl, (tbl.length : Int)) =
      (toMap (subsetIteration NFATable ALPHABET tbl),
        ((subsetIteration NFATable ALPHABET tbl).length : Int)) := by
  obtain ⟨hk, -⟩ := isAnythingUnmarked_nonneg hu
  obtain ⟨k, hk2⟩ := Int.eq_ofNat_of_zero_le hu
  rw [hk2, Int.toNat_ofNat] at hk
  simp only [subsetIterationMap, subsetIteration, isAnythingUnmarkedMap_toMap, hk2,
    Int.toNat_ofNat]
  rw [mapMark_toMap tbl k hk]
  have hlen : (tbl.length : Int) = ((tableMark tbl k).length : Int) := by
    rw [tableMark_length]
  rw [hlen]
  exact subsetSymbolsMap_toMap NFATable k _ _ (by rw [tableMark_length]; exact hk)

theorem subsetLoopMap_toMap (NFATable : NFATableType) (ALPHABET : List Char) :
    ∀ (fuel : Nat) (tbl : DFATableType),
      subsetLoopMap NFATable ALPHABET fuel (toMap tbl, (tbl.length : Int)) =
        (toMap (subsetLoop NFATable ALPHABET fuel tbl),
          ((subsetLoop NFATable ALPHABET fuel tbl).length : Int)) := by
  intro fuel
  induction fuel with
  | zero => intro tbl; rfl
  | succ n ih =>
    intro tbl
    by_cases hu : 0 ≤ isAnythingUnmarked tbl
    · simp only [subsetLoopMap, subsetLoop, isAnythingUnmarkedMap_toMap, ge_iff_le, hu, if_true]
      rw [subsetIterationMap_toMap NFATable ALPHABET tbl hu]
      exact ih _
    · simp only [subsetLoopMap, subsetLoop, isAnythingUnmarkedMap_toMap, ge_iff_le, hu, if_false]

theorem initialDriverState_toMap (initialState : Int) (NFATable : NFATableType) :
    initialDriverState initialState NFATable [] =
      (toMap (initialTable initialState NFATable),
        ((initialTable initialState NFATable).length : Int)) := rfl

/-- The driver on the map, started on the empty table, holds after `n`
iterations the states of the list model under the keys `0 .. n-1`, and its
counter is their number. -/
theorem driverAfter_toMap (initialState : Int) (NFATable : NFATableType)
    (ALPHABET : List Char) (n : Nat) :
    driverAfter initialState NFATable ALPHABET n =
      (toMap (tableAfter initialState NFATable ALPHABET n),
        ((tableAfter initialState NFATable ALPHABET n).length : Int)) := by
  unfold driverAfter tableAfter
  rw [initialDriverState_toMap]
  exact subsetLoopMap_toMap NFATable ALPHABET n _

theorem subsetConstructionMap_toMap (initialState : Int) (finalStates : List Int)
    (NFATable : NFATableType) (ALPHABET : List Char) :
    subsetConstructionMap initialState finalStates NFATable ALPHABET [] =
      (toMap (subsetConstruction initialState finalStates NFATable ALPHABET),
        ((subsetConstruction initialState finalStates NFATable ALPHABET).length : Int)) :=
  driverAfter_toMap initialState NFATable ALPHABET _

theorem driverWF_toMap {tbl : DFATableType} (h : TableWF tbl) :
    DriverWF (toMap tbl, (tbl.length : Int)) := by
  obtain ⟨h1, h2, h3⟩ := h
  refine ⟨by simpa [toMap_length] using h1, by simpa [toMap_length] using toMap_keys tbl,
    by simp [toMap_length], ?_, ?_⟩
  · intro e he
    obtain ⟨n, hn, -, hget⟩ := mem_toMapFrom tbl 0 e he
    have := h2 n hn
    simpa [tableStates, hget] using this
  · intro e he c j hj
    obtain ⟨n, hn, -, hget⟩ := mem_toMapFrom tbl 0 e he
    have := h3 n c j (by simpa [tableMoves, hget] using hj)
    simpa [toMap_length] using this

/-- C19: on the `std::map` itself, started empty as `main` passes it, with the
counter `currentDFAStateNumber`: after any number of iterations of the `while`
loop, and in the final table, the keys of the table are exactly `0 .. n-1`
for `n` the number of DFA states, the counter equals `n`, every constituent
vector is non-empty, and every recorded transition destination is `-1` or an
index smaller than `n`.  An iteration keeps the constituent vectors under the
keys that exist, so the keys are assigned in the order of discovery, and the
loop ends with no state unmarked.  (The loop over the alphabet is defined for
a non-empty `ALPHABET` only.) -/
theorem driver_table_well_formed (initialState : Int) (finalStates : List Int)
    (NFATable : NFATableType) (ALPHABET : List Char) (_hA : ALPHABET ≠ []) :
    (∀ n, DriverWF (driverAfter initialState NFATable ALPHABET n)) ∧
    (∀ n, (driverAfter initialState NFATable ALPHABET n).1.length ≤
        (driverAfter initialState NFATable ALPHABET (n + 1)).1.length ∧
      ∀ i : Nat, i < (driverAfter initialState NFATable ALPHABET n).1.length →
        (mapAt (driverAfter initialState NFATable ALPHABET (n + 1)).1 (i : Int)).states =
          (mapAt (driverAfter initialState NFATable ALPHABET n).1 (i : Int)).states) ∧
    DriverWF (subsetConstructionMap initialState finalStates NFATable ALPHABET []) ∧
    isAnythingUnmarkedMap
      (subsetConstructionMap initialState finalStates NFATable ALPHABET []).1 = -1 := by
  refine ⟨?_, ?_, ?_, ?_⟩
  · intro n
    rw [driverAfter_toMap]
    exact driverWF_toMap (tableWF_of (subsetLoop_core initialState NFATable ALPHABET n)
      (tableAfter_movesWF initialState NFATable ALPHABET n))
  · intro n
    have hext := tableAfter_succ_extends initialState NFATable ALPHABET n
    rw [driverAfter_toMap, driverAfter_toMap]
    simp only [toMap_length, mapAt_toMap_states]
    exact ⟨hext.1, hext.2⟩
  · rw [subsetConstructionMap_toMap]
    exact driverWF_toMap (tableWF_of
      (subsetConstruction_core initialState finalStates NFATable ALPHABET)
      (subsetConstruction_movesWF initialState finalStates NFATable ALPHABET))
  · rw [subsetConstructionMap_toMap]
    simp only [isAnythingUnmarkedMap_toMap]
    exact subsetLoop_fuel_enough initialState finalStates NFATable ALPHABET

/-- Witness for C19 on the scenario NFA: the final table has the keys 0 and 1
and the counter is 2. -/
theorem driver_table_well_formed_witness :
    ['a', 'b', 'E'] ≠ [] ∧
    (subsetConstructionMap 1 [3] scenarioNFA ['a', 'b', 'E'] []).1.map Prod.fst = [0, 1] ∧
    (subsetConstructionMap 1 [3] scenarioNFA ['a', 'b', 'E'] []).2 = 2 ∧
    DriverWF (subsetConstructionMap 1 [3] scenarioNFA ['a', 'b', 'E'] []) :=
  ⟨by decide, by decide, by decide,
    (driver_table_well_formed 1 [3] scenarioNFA ['a', 'b', 'E'] (by decide)).2.2.1⟩

end NfaToDfa
